import Mathlib

/-!
# Blade encoding of the versor geometric-algebra engine

A shallow embedding of `namespace vsr::bits` of
`include/versor/detail/basis.h`, followed by the properties of the blade
bitmask functions (`grade`, `dimOf`, `signFlip`, `inner`, `outer`, `product`,
the reversion / involution / conjugation parities, the blade ordering and the
pseudoscalar).

## Data model

The blade type is `typedef short type;`: a 16-bit twos-complement integer.
A value of that type is embedded as the `Int` it denotes, so a blade is an
`Int` in `[-32768, 32767]` (`isType`).  Bit `k` of the C++ value is
`Int.testBit a k` for `k < 16`; bit 15 is the sign bit, so the blades that use
the 16th basis vector are exactly the negative ones.

C++ evaluates `&`, `^`, `|`, `>>`, `+`, `-`, `*` on `short` operands after
promotion to `int`; on twos-complement integers these agree with
`Int.land`, `Int.xor`, `Int.lor`, the arithmetic shift `>>>` and the ring
operations of `Int`.  An `int` result is converted back to `short` when it is
passed to a parameter of type `type` or returned as `type`; `toType` is that
conversion (reduction modulo `2^16` into the signed range).  It is written out
at every place where the `int` value can leave the `short` range for operands
that are themselves in range (`c + 1`, `dim + 1`, `1 << (x - 1)`,
`(1 << (dim - 1)) | pss(dim - 1)`); `a >> 1`, `a & b` and `a ^ b` of in-range
operands are in range already.

Two points are implementation-defined before C++20 and fixed by C++20 the way
every mainstream compiler always did them; the embedding follows that
behaviour: `>>` on a negative operand is the arithmetic shift (floor division
by two, which is `>>>` on `Int`), and the conversion of an out-of-range `int`
to `short` wraps modulo `2^16`.

## Layout

All definitions come first: the embedded functions of `basis.h`, the
reference notions in which the properties are stated (`popcount`,
`crossings`), the coefficient type `double`, and the multivector value type of
`multivector.h` with its operators.  The theorems follow: bit-level lemmas,
the behaviour of the blade functions on blades whose sign bit is clear, the
properties of the blade encoding (sign, ordering, Minkowski split, blade
names), the arithmetic of `double`, and the properties of the multivector
operators.
-/

namespace bits

/-! ## The embedded source functions -/

/-- Conversion of an `int` to `bits::type` (`short`): the value modulo `2^16`,
taken in `[-32768, 32767]`. -/
def toType (x : Int) : Int := (x + 32768) % 65536 - 32768

/-- The values of `bits::type` (`typedef short type;`, basis.h:81). -/
def isType (a : Int) : Prop := -32768 ≤ a ∧ a ≤ 32767

instance (a : Int) : Decidable (isType a) :=
  inferInstanceAs (Decidable (-32768 ≤ a ∧ a ≤ 32767))

/-- Source (basis.h:92-95):
`constexpr type makeBlade(X x) { return 1 << (x - 1); }`.
The argument is a 1-based basis-vector index.  The shift is exact (`1 <<< n`
is `2^n` for `n ≥ 0`), the result is converted to `type`.  C++ leaves the
shift undefined for `x < 1` and for `x > 32`. -/
def makeBlade (x : Nat) : Int := toType ((1 : Int) <<< ((x : Int) - 1))

/-- Source (basis.h:103-105):
`constexpr type grade(type a, type c = 0) {
   return a > 0 ? (a & 1 ? grade(a >> 1, c + 1) : grade(a >> 1, c)) : c; }`. -/
def grade (a : Int) (c : Int := 0) : Int :=
  if a > 0 then
    (if Int.land a 1 ≠ 0 then grade (a >>> (1 : Nat)) (toType (c + 1))
     else grade (a >>> (1 : Nat)) c)
  else c
termination_by a.toNat
decreasing_by
  all_goals simp_wf
  all_goals rw [Int.shiftRight_eq_div_pow]
  all_goals omega

/-- Source (basis.h:108-110):
`constexpr type dimOf(type b, type dim = 0) {
   return (b > 0) ? dimOf(b >> 1, dim + 1) : dim; }`. -/
def dimOf (b : Int) (dim : Int := 0) : Int :=
  if b > 0 then dimOf (b >>> (1 : Nat)) (toType (dim + 1)) else dim
termination_by b.toNat
decreasing_by
  simp_wf
  rw [Int.shiftRight_eq_div_pow]
  omega

/-- Source (basis.h:113-116):
`constexpr bool signFlip(type a, type b, int c = 0) {
   return (a >> 1) > 0 ? (signFlip(a >> 1, b, c + grade((a >> 1) & b)))
                       : ((c & 1) ? true : false); }`.
The accumulator `c` is an `int`; started at `0` it never exceeds `15 * 15`. -/
def signFlip (a b : Int) (c : Int := 0) : Bool :=
  if (a >>> (1 : Nat)) > 0 then
    signFlip (a >>> (1 : Nat)) b (c + grade (Int.land (a >>> (1 : Nat)) b))
  else (if Int.land c 1 ≠ 0 then true else false)
termination_by a.toNat
decreasing_by
  simp_wf
  rw [Int.shiftRight_eq_div_pow] at *
  omega

/-- Source (basis.h:119-121):
`constexpr bool inner(type a, type b) {
   return !((grade(a) > grade(b)) || (grade(a ^ b) != (grade(b) - grade(a)))); }`. -/
def inner (a b : Int) : Bool :=
  !(decide (grade a > grade b) || decide (grade (Int.xor a b) ≠ grade b - grade a))

/-- Source (basis.h:124):
`constexpr bool outer(type a, type b) { return !(a & b); }`. -/
def outer (a b : Int) : Bool := !(decide (Int.land a b ≠ 0))

/-- Source (basis.h:127):
`constexpr type product(type a, type b) { return a ^ b; }`. -/
def product (a b : Int) : Int := Int.xor a b

/-- Source (basis.h:130-132):
`constexpr int cpow(int x, int N) { return (N > 0) ? (x * cpow(x, N - 1)) : (1.0); }`.
The `1.0` is converted to the `int` return type. -/
def cpow (x N : Int) : Int :=
  if N > 0 then x * cpow x (N - 1) else 1
termination_by N.toNat
decreasing_by
  simp_wf
  omega

/-- Source (basis.h:135-137):
`constexpr bool reverse(type a) {
   return cpow(-1, (grade(a) * (grade(a) - 1) / 2.0)) == -1; }`.
The quotient is a `double` that is converted to the `int` parameter `N`,
which truncates toward zero (`Int.tdiv`). -/
def reverse (a : Int) : Bool :=
  decide (cpow (-1) (Int.tdiv (grade a * (grade a - 1)) 2) = -1)

/-- Source (basis.h:139):
`constexpr bool involute(type a) { return cpow(-1, grade(a)) == -1; }`. -/
def involute (a : Int) : Bool := decide (cpow (-1) (grade a) = -1)

/-- Source (basis.h:142-144):
`constexpr bool conjugate(type a) {
   return cpow(-1, (grade(a) * (grade(a) + 1) / 2.0)) == -1; }`. -/
def conjugate (a : Int) : Bool :=
  decide (cpow (-1) (Int.tdiv (grade a * (grade a + 1)) 2) = -1)

/-- Source (basis.h:147-150):
`template <type A, type B> constexpr bool compare() {
   return (grade(A) == grade(B)) ? A < B : grade(A) < grade(B); }`. -/
def compare (A B : Int) : Bool :=
  if grade A = grade B then decide (A < B) else decide (grade A < grade B)

/-- Source (basis.h:152-154):
`constexpr bool lessThan(type A, type B) {
   return (grade(A) == grade(B)) ? A < B : grade(A) < grade(B); }`. -/
def lessThan (A B : Int) : Bool :=
  if grade A = grade B then decide (A < B) else decide (grade A < grade B)

/-- Source (basis.h:155-158):
`template <type A, type B> constexpr bool greaterThan() {
   return (grade(A) == grade(B)) ? A > B : grade(A) > grade(B); }`. -/
def greaterThan (A B : Int) : Bool :=
  if grade A = grade B then decide (A > B) else decide (grade A > grade B)

/-- Source (basis.h:161-163):
`constexpr type pss(type dim) {
   return (dim == 0) ? 0 : (1 << (dim - 1)) | pss(dim - 1); }`.
The argument is a dimension count; the recursion `pss(dim - 1)` and the shift
`1 << (dim - 1)` are defined for `dim ≥ 0` only, which is the domain `Nat`.
The result is converted to `type`. -/
def pss : Nat → Int
  | 0 => 0
  | dim + 1 => toType (Int.lor ((1 : Int) <<< (dim : Int)) (pss dim))

/-- Source (basis.h:166-169):
`template <type dim> constexpr type origin() { return (1 << (dim - 2)); }`.
As for `pss`, `dim` is a dimension count; the shift is defined for
`2 ≤ dim ≤ 33`. -/
def origin (dim : Nat) : Int := toType ((1 : Int) <<< ((dim : Int) - 2))

/-- Source (basis.h:172-175):
`template <type dim> constexpr type infinity() { return (1 << (dim - 1)); }`. -/
def infinity (dim : Nat) : Int := toType ((1 : Int) <<< ((dim : Int) - 1))

/-- Source (basis.h:190-193):
`template <type dim> constexpr type eplane() {
   return (1 << (dim - 1)) | (1 << (dim - 2)); }`. -/
def eplane (dim : Nat) : Int :=
  toType (Int.lor ((1 : Int) <<< ((dim : Int) - 1)) ((1 : Int) <<< ((dim : Int) - 2)))

/-- Source (basis.h:196-199):
`template <type a, type dim> constexpr bool checkMink() {
   return ((a & eplane<dim>()) == 0) || ((a & eplane<dim>()) == eplane<dim>()); }`. -/
def checkMink (a : Int) (dim : Nat) : Bool :=
  decide (Int.land a (eplane dim) = 0) || decide (Int.land a (eplane dim) = eplane dim)

/-- The `while (x != 0)` loop of `estring` (basis.h:69-73):
`while (x != 0) { if (x & 1) s << i; x = x >> 1; i++; }`,
run for at most `fuel` iterations on the state `(x, i, s)`; `none` stands for
a loop that has not finished within `fuel` iterations. -/
def estringLoop : Nat → Int → Int → String → Option String
  | 0, _, _, _ => none
  | fuel + 1, x, i, s =>
    if x ≠ 0 then
      estringLoop fuel (x >>> (1 : Nat)) (i + 1)
        (if Int.land x 1 ≠ 0 then s ++ toString i else s)
    else some s

/-- Source (basis.h:62-75):
`inline string estring(int x) {
   if (x == 0) { return ""; }
   stringstream s; s << "e"; int i = 1;
   while (x != 0) { if (x & 1) s << i; x = x >> 1; i++; }
   return s.str(); }`. -/
def estring (fuel : Nat) (x : Int) : Option String :=
  if x = 0 then some "" else estringLoop fuel x 1 "e"

/-! ## Reference notions used to state the properties -/

/-- Number of set bits among the 16 bits of a blade. -/
def popcount (a : Int) : Nat :=
  ((Finset.range 16).filter (fun i => a.testBit i = true)).card

/-- Number of pairs `(i, j)` of bit positions with bit `i` set in `a`, bit `j`
set in `b` and `i > j`: the adjacent transpositions that sort the basis
vectors of `a` followed by those of `b`. -/
def crossings (a b : Int) : Nat :=
  ((Finset.range 16 ×ˢ Finset.range 16).filter
    (fun p => a.testBit p.1 = true ∧ b.testBit p.2 = true ∧ p.1 > p.2)).card

/-- Number of set bits among the lowest `w` bits. -/
def popc (w : Nat) (a : Int) : Nat :=
  ∑ i in Finset.range w, if a.testBit i = true then 1 else 0

/-- The pair count of `crossings` restricted to the lowest `w` bits of `a`,
summed bit by bit. -/
def cr (w : Nat) (a b : Int) : Nat :=
  ∑ i in Finset.range w, if a.testBit i = true then popc i b else 0

/-- The decimal 1-based indices, counted from `i`, of the set bits among the
lowest `w` bits of `x`, in ascending order and written one after the other. -/
def indexString (w : Nat) (x : Int) (i : Int) : String :=
  (((List.range w).filter (fun k => x.testBit k)).map (fun (k : Nat) => toString (i + (k : Int)))).foldr
    (fun t r => t ++ r) ""

/-- Reads back the blade from the characters that follow the `e` of a blade
name over the basis vectors 1 to 11: a final `11` is the index 11, `10` is
the index 10, any other character is a one-digit index. -/
def decodeChars : List Char → Option Nat
  | [] => some 0
  | ['1', '1'] => some 1024
  | '1' :: '0' :: rest => (decodeChars rest).map (fun n => n + 512)
  | c :: rest => (decodeChars rest).map (fun n => n + 2 ^ (c.toNat - 49))

/-- Reads back the blade from a blade name over the basis vectors 1 to 11. -/
def decode (s : Option String) : Option Nat :=
  match s with
  | none => none
  | some s =>
    match s.data with
    | [] => some 0
    | _ :: rest => decodeChars rest

end bits

/-! ## The coefficient type

`value_t` is `float` or `double` (multivector.h:58-59).  `Double` is IEEE 754
binary64 with the default rounding (to nearest, ties to even): a value is a
finite number, an infinity or NaN, and every operation returns the
representable value nearest to the exact result, an infinity on overflow, and
NaN on an invalid operation.  The two zeros are one value, `fin 0`: under
the operations below they differ only in the sign of a quotient by zero, which
`div` takes from the dividend.  Structural equality of `Double` is the `==` of
C++ on every value but NaN, which C++ makes unequal to itself.  The theorems
`ofRat_spec`, `roundDiv_spec`, `floorLog2_spec`, `isqrt_spec` and `sqrt_spec`
state what the rounding functions compute.
-/

/-- Values of `double`: a finite number (held as the rational it denotes), an
infinity with its sign (`neg = true` for the negative one), or NaN. -/
inductive Double where
  | fin (q : ℚ)
  | inf (neg : Bool)
  | nan
deriving DecidableEq

namespace Double

/-- Loop of `ilog2`: halve `n` until it is below two, at most `fuel` times. -/
def log2Loop : Nat → Nat → Nat
  | 0, _ => 0
  | fuel + 1, n => if n < 2 then 0 else log2Loop fuel (n / 2) + 1

/-- Position of the highest set bit of `n` (zero for `n = 0`). -/
def ilog2 (n : Nat) : Nat := log2Loop n n

/-- The quotient `n / d` rounded to the nearest natural number, ties to the
even one. -/
def roundDiv (n d : Nat) : Nat :=
  let q := n / d
  let r := n % d
  if 2 * r < d then q else if d < 2 * r then q + 1 else if q % 2 = 0 then q else q + 1

/-- The exponent `e` with `2^e ≤ n / d < 2^(e+1)`, for `n, d > 0`. -/
def floorLog2 (n d : Nat) : Int :=
  let e0 : Int := (ilog2 n : Int) - (ilog2 d : Int)
  if (if 0 ≤ e0 then d * 2 ^ e0.toNat ≤ n else d ≤ n * 2 ^ (-e0).toNat) then e0 else e0 - 1

/-- Exponent of the spacing of binary64 at the magnitude `n / d`: 53
significant bits, and never below `2^(-1074)`, the spacing of the subnormal
range. -/
def quantum (n d : Nat) : Int := max (floorLog2 n d - 52) (-1074)

/-- The multiple of `2^s` nearest to `n / d`, as a count of spacings. -/
def scaled (n d : Nat) (s : Int) : Nat :=
  if 0 ≤ s then roundDiv n (d * 2 ^ s.toNat) else roundDiv (n * 2 ^ (-s).toNat) d

/-- The number `k * 2^s`. -/
def ofScaled (k : Nat) (s : Int) : ℚ :=
  if 0 ≤ s then ((k * 2 ^ s.toNat : Nat) : ℚ) else mkRat (k : Int) (2 ^ (-s).toNat)

/-- Rounding of an exact result to binary64: the nearest representable value,
ties to even, and an infinity when the rounded magnitude reaches `2^1024`. -/
def ofRat (q : ℚ) : Double :=
  if q.num = 0 then fin 0 else
    let n := q.num.natAbs
    let s := quantum n q.den
    let k := scaled n q.den s
    if 0 ≤ s ∧ 2 ^ 1024 ≤ k * 2 ^ s.toNat then inf (decide (q.num < 0))
    else fin (if q.num < 0 then - ofScaled k s else ofScaled k s)

/-- Newton iteration for the integer square root, started above the root:
stops at the first step that does not decrease. -/
def isqrtLoop : Nat → Nat → Nat → Nat
  | 0, _, x => x
  | fuel + 1, n, x =>
    let y := (x + n / x) / 2
    if y < x then isqrtLoop fuel n y else x

/-- The integer square root `⌊√n⌋`: the iteration starts at a power of two
above the root and comes down by at least one in every step. -/
def isqrt (n : Nat) : Nat :=
  isqrtLoop (2 ^ (ilog2 n / 2 + 1)) n (2 ^ (ilog2 n / 2 + 1))

/-- Addition `a + b` of `double`. -/
def add : Double → Double → Double
  | fin a, fin b => ofRat (a + b)
  | fin _, inf s => inf s
  | inf s, fin _ => inf s
  | inf s, inf t => if s = t then inf s else nan
  | _, _ => nan

/-- Negation `-a` of `double`. -/
def neg : Double → Double
  | fin a => fin (-a)
  | inf s => inf (!s)
  | nan => nan

/-- Subtraction `a - b` of `double`; `inf - inf` of equal signs is NaN. -/
def sub (a b : Double) : Double := add a (neg b)

/-- Multiplication `a * b` of `double`; `0 * inf` is NaN. -/
def mul : Double → Double → Double
  | fin a, fin b => ofRat (a * b)
  | fin a, inf s => if a.num = 0 then nan else inf (xor s (decide (a.num < 0)))
  | inf s, fin b => if b.num = 0 then nan else inf (xor s (decide (b.num < 0)))
  | inf s, inf t => inf (xor s t)
  | _, _ => nan

/-- Division `a / b` of `double`; `0 / 0` and `inf / inf` are NaN, a nonzero
finite number divided by zero is the infinity of its own sign. -/
def div : Double → Double → Double
  | fin a, fin b =>
    if b.num = 0 then (if a.num = 0 then nan else inf (decide (a.num < 0))) else ofRat (a / b)
  | fin _, inf _ => fin 0
  | inf s, fin b => inf (xor s (decide (b.num < 0)))
  | _, _ => nan

/-- The classification `isfinite` of `<math.h>`: neither an infinity nor
NaN. -/
def isFinite : Double → Bool
  | fin _ => true
  | _ => false

/-- The function `fabs` of `<math.h>`. -/
def fabs : Double → Double
  | fin a => fin (if a.num < 0 then -a else a)
  | inf _ => inf false
  | nan => nan

/-- The function `sqrt` of `<math.h>`, correctly rounded as IEEE 754 requires.
For `q > 0` the root of `q * 4^t` is taken to the integer below it, with `t`
large enough for that integer to have more than 55 bits; an inexact root lies
strictly between two integers, where no binary64 value and no midpoint of two
of them lies, so it rounds as the half-integer between them does. -/
def sqrt : Double → Double
  | fin q =>
    if q.num < 0 then nan else if q.num = 0 then fin 0 else
      let t := 64 + ilog2 q.den
      let x := q.num.natAbs * 4 ^ t / q.den
      let r := isqrt x
      let y : ℚ := if q.num.natAbs * 4 ^ t % q.den = 0 ∧ r * r = x then (r : ℚ)
        else mkRat (2 * r + 1) 2
      ofRat (y / ((2 ^ t : Nat) : ℚ))
  | inf s => if s then nan else inf false
  | nan => nan

instance : Zero Double := ⟨fin 0⟩
instance : Add Double := ⟨add⟩
instance : Sub Double := ⟨sub⟩
instance : Mul Double := ⟨mul⟩
instance : Div Double := ⟨div⟩

/-- A decimal literal of type `double`, such as `.5` or `1e200`, denotes the
value nearest to it. -/
instance : OfScientific Double := ⟨fun m s e => ofRat (OfScientific.ofScientific m s e)⟩

end Double

/-- The function `fabs` of `<math.h>` on a coefficient type. -/
class Fabs (α : Type) where
  fabs : α → α

/-- On exact ordered coefficients `fabs` is the absolute value. -/
instance {α : Type} [Lattice α] [AddGroup α] : Fabs α := ⟨fun x => |x|⟩

instance : Fabs Double := ⟨Double.fabs⟩

/-! ## The multivector value type

`template <typename algebra_type, typename basis_type> struct Multivector` of
`include/versor/detail/multivector.h`.  The coefficient type `value_t` is a
type parameter `α`.  The operators `-`, `*`, `/`, `%`, `!` and `unit` are
written over the operations they use, so that they can be read at `Double` as
well as at an exact ordered field, where neither rounding nor infinities nor
NaN occur; `norm`, `rnorm`, `runit` and `tunit` are read at an ordered field,
and `==` at a type whose equality is that of C++ (`Double` without NaN, or
exact coefficients).  `Num` is the number of basis blades.  The products of
`algebra.h` (`algebra::gp`, `algebra::ip`), which are not part of these
sources, and `sqrt` of `<math.h>` are parameters of the functions that call
them; `fabs` is `Fabs.fabs`, the absolute value on an ordered field.
-/

/-- Source (multivector.h:89): the only data member,
`std::array<value_t, Num> val;`. -/
structure Multivector (α : Type) (Num : Nat) where
  val : Fin Num → α

namespace Multivector

/-- Result of a subscript expression: a value, a fail-fast stop
(assertion or panic), or an access that left the array with no check made
(undefined behaviour in C++). -/
inductive Access (β : Type) where
  | value : β → Access β
  | failed : Access β
  | unchecked : Access β

/-- Loop `for (int i = 0; i < Num; ++i) body` acting on a state, started at
counter `i`. -/
def forLoop {σ : Type} (Num : Nat) (body : Fin Num → σ → σ) (s : σ) (i : Nat := 0) : σ :=
  if h : i < Num then forLoop Num body (body ⟨i, h⟩ s) (i + 1) else s
termination_by Num - i

/-- Source (multivector.h:104-106): the variadic constructor
`constexpr explicit Multivector(Args... v) : val{static_cast<value_t>(v)...} {}`
called with no argument, as in `Multivector()` and `Multivector tmp;`:
`val{}` value-initialises every slot to zero. -/
def zero {α : Type} {Num : Nat} [Zero α] : Multivector α Num := ⟨fun _ => 0⟩

/-- Assignment `m[i] = v` to a slot `i` that is in range. -/
def set {α : Type} {Num : Nat} (m : Multivector α Num) (i : Fin Num) (v : α) :
    Multivector α Num :=
  ⟨Function.update m.val i v⟩

/-- Source (multivector.h:100):
`constexpr value_t operator[](int idx) const { return val[idx]; }`.
`std::array::operator[]` makes no bounds check and the operator adds none. -/
def index {α : Type} {Num : Nat} (m : Multivector α Num) (idx : Int) : Access α :=
  if h : 0 ≤ idx ∧ idx < (Num : Int) then
    Access.value (m.val ⟨idx.toNat, by omega⟩)
  else Access.unchecked

/-- Source (multivector.h:102):
`value_t &operator[](int idx) { return val[idx]; }` used as `m[idx] = v`. -/
def indexSet {α : Type} {Num : Nat} (m : Multivector α Num) (idx : Int) (v : α) :
    Access (Multivector α Num) :=
  if h : 0 ≤ idx ∧ idx < (Num : Int) then
    Access.value (m.set ⟨idx.toNat, by omega⟩ v)
  else Access.unchecked

/-- Loop of `operator==` from counter `i` on:
`for (...) { if (val[i] != mv[i]) return false; } return true;`. -/
def equalsFrom {α : Type} {Num : Nat} [DecidableEq α] (a b : Multivector α Num) (i : Nat) :
    Bool :=
  if h : i < Num then
    (if a.val ⟨i, h⟩ ≠ b.val ⟨i, h⟩ then false else equalsFrom a b (i + 1))
  else true
termination_by Num - i

/-- Source (multivector.h:151-156):
`bool operator==(const Multivector &mv) const {
   for (int i = 0; i < Num; ++i) { if (val[i] != mv[i]) return false; }
   return true; }`. -/
def equals {α : Type} {Num : Nat} [DecidableEq α] (a b : Multivector α Num) : Bool :=
  equalsFrom a b 0

/-- Source (multivector.h:338-342):
`Multivector operator-(const Multivector &a) const {
   Multivector tmp;
   for (int i = 0; i < Num; ++i) tmp[i] = (*this)[i] - a[i];
   return tmp; }`. -/
def sub {α : Type} {Num : Nat} [Zero α] [Sub α] (m a : Multivector α Num) : Multivector α Num :=
  forLoop Num (fun i tmp => tmp.set i (m.val i - a.val i)) zero

/-- Source (multivector.h:378-384):
`Multivector operator*(value_t f) const {
   Multivector tmp = *this;
   for (int i = 0; i < Num; ++i) { tmp[i] *= f; }
   return tmp; }`. -/
def mulScalar {α : Type} {Num : Nat} [Mul α] (m : Multivector α Num) (f : α) :
    Multivector α Num :=
  forLoop Num (fun i tmp => tmp.set i (tmp.val i * f)) m

/-- Source (multivector.h:361-367):
`Multivector operator/(value_t f) const {
   Multivector tmp = *this;
   for (int i = 0; i < Num; ++i) { tmp[i] /= f; }
   return tmp; }`. -/
def divScalar {α : Type} {Num : Nat} [Div α] (m : Multivector α Num) (f : α) :
    Multivector α Num :=
  forLoop Num (fun i tmp => tmp.set i (tmp.val i / f)) m

/-- Source (multivector.h:190-193):
`auto operator%(const MultivectorB<B> &b) const {
   return ((*this * b) - (b * (*this))) * .5; }`
for `b` of the type of `*this`; `gp` is the geometric product `operator*`
(`algebra::gp`) with result basis of `P` blades. -/
def commutator {α : Type} {Num P : Nat} [Zero α] [Sub α] [Mul α] [OfScientific α]
    (gp : Multivector α Num → Multivector α Num → Multivector α P)
    (m b : Multivector α Num) : Multivector α P :=
  mulScalar (sub (gp m b) (gp b m)) 0.5

/-- Modelled from the spec: `Reverse<basis>::Type::Make`, the compile-time
generated reversion of `algebra.h`, which is not part of these sources: it
sign-flips every coefficient whose basis blade satisfies `bits::reverse` and
leaves the others unchanged.  `basis` lists the blade of every slot. -/
def reverseMake {α : Type} {Num : Nat} [Neg α] (basis : Fin Num → Int)
    (m : Multivector α Num) : Multivector α Num :=
  ⟨fun i => if bits.reverse (basis i) = true then - m.val i else m.val i⟩

/-- Source (multivector.h:215-218):
`Multivector operator~() const { return Reverse<basis>::Type::template Make(*this); }`. -/
def reversion {α : Type} {Num : Nat} [Neg α] (basis : Fin Num → Int)
    (m : Multivector α Num) : Multivector α Num :=
  reverseMake basis m

/-- Source (multivector.h:221-225):
`Multivector operator!() const {
   Multivector tmp = ~(*this);
   value_t v = ((*this) * tmp)[0];
   return (v == 0) ? tmp : tmp / v; }`.
`rev` is `operator~` and `gp` the geometric product, whose result has at least
the slot 0 that is read. -/
def inverse {α : Type} {Num P : Nat} [Zero α] [Div α] [DecidableEq α]
    (rev : Multivector α Num → Multivector α Num)
    (gp : Multivector α Num → Multivector α Num → Multivector α (P + 1))
    (m : Multivector α Num) : Multivector α Num :=
  let tmp := rev m
  let v := (gp m tmp).val 0
  if v = 0 then tmp else divScalar tmp v

/-- Source (multivector.h:290):
`value_t wt() const { return (*this <= *this)[0]; }`; `ip` is the left
contraction `operator<=` (`algebra::ip`). -/
def wt {α : Type} {Num P : Nat}
    (ip : Multivector α Num → Multivector α Num → Multivector α (P + 1))
    (m : Multivector α Num) : α :=
  (ip m m).val 0

/-- Source (multivector.h:291):
`value_t rwt() const { return (*this <= ~(*this))[0]; }`. -/
def rwt {α : Type} {Num P : Nat}
    (ip : Multivector α Num → Multivector α Num → Multivector α (P + 1))
    (rev : Multivector α Num → Multivector α Num)
    (m : Multivector α Num) : α :=
  (ip m (rev m)).val 0

/-- Source (multivector.h:292-296):
`value_t norm() const { value_t a = rwt(); if (a < 0) return 0; return sqrt(a); }`. -/
def norm {α : Type} {Num P : Nat} [LinearOrderedField α]
    (ip : Multivector α Num → Multivector α Num → Multivector α (P + 1))
    (rev : Multivector α Num → Multivector α Num) (sqrt : α → α)
    (m : Multivector α Num) : α :=
  let a := rwt ip rev m
  if a < 0 then 0 else sqrt a

/-- Source (multivector.h:298-302):
`value_t rnorm() const { value_t a = rwt(); if (a < 0) return -sqrt(-a); return sqrt(a); }`. -/
def rnorm {α : Type} {Num P : Nat} [LinearOrderedField α]
    (ip : Multivector α Num → Multivector α Num → Multivector α (P + 1))
    (rev : Multivector α Num → Multivector α Num) (sqrt : α → α)
    (m : Multivector α Num) : α :=
  let a := rwt ip rev m
  if a < 0 then - sqrt (-a) else sqrt a

/-- Source (multivector.h:304-308):
`Multivector unit() const {
   value_t t = sqrt(fabs((*this <= *this)[0]));
   if (t == 0) return Multivector();
   return *this / t; }`. -/
def unit {α : Type} {Num P : Nat} [Zero α] [Div α] [DecidableEq α] [Fabs α]
    (ip : Multivector α Num → Multivector α Num → Multivector α (P + 1)) (sqrt : α → α)
    (m : Multivector α Num) : Multivector α Num :=
  let t := sqrt (Fabs.fabs ((ip m m).val 0))
  if t = 0 then zero else divScalar m t

/-- Source (multivector.h:310-314):
`Multivector runit() const {
   value_t t = rnorm();
   if (t == 0) return Multivector();
   return *this / t; }`. -/
def runit {α : Type} {Num P : Nat} [LinearOrderedField α]
    (ip : Multivector α Num → Multivector α Num → Multivector α (P + 1))
    (rev : Multivector α Num → Multivector α Num) (sqrt : α → α)
    (m : Multivector α Num) : Multivector α Num :=
  let t := rnorm ip rev sqrt m
  if t = 0 then zero else divScalar m t

/-- Source (multivector.h:316-322):
`Multivector tunit() const {
   value_t t = norm();
   if (t == 0) { return Multivector(); }
   return *this / t; }`. -/
def tunit {α : Type} {Num P : Nat} [LinearOrderedField α]
    (ip : Multivector α Num → Multivector α Num → Multivector α (P + 1))
    (rev : Multivector α Num → Multivector α Num) (sqrt : α → α)
    (m : Multivector α Num) : Multivector α Num :=
  let t := norm ip rev sqrt m
  if t = 0 then zero else divScalar m t

end Multivector

/-! ### An instance of the parameters

Vectors of the Euclidean plane (basis blades `e1`, `e2`), over `ℚ` and over
`Double`, used to instantiate the parameters `ip`, `gp` and `sqrt` at concrete
values.  These are not taken from the sources. -/

namespace Multivector

/-- The vector `x e1 + y e2`. -/
def planeVec (x y : ℚ) : Multivector ℚ 2 := ⟨fun i => if i.val = 0 then x else y⟩

/-- Left contraction of two plane vectors: the scalar `a · b`. -/
def planeIp (a b : Multivector ℚ 2) : Multivector ℚ 1 :=
  ⟨fun _ => a.val 0 * b.val 0 + a.val 1 * b.val 1⟩

/-- Geometric product of two plane vectors: scalar part `a · b`, bivector
part `a ∧ b`. -/
def planeGp (a b : Multivector ℚ 2) : Multivector ℚ 2 :=
  ⟨fun i => if i.val = 0 then a.val 0 * b.val 0 + a.val 1 * b.val 1
    else a.val 0 * b.val 1 - a.val 1 * b.val 0⟩

/-- Square root on `ℚ`, exact on squares of rationals. -/
def sqrtRat (q : ℚ) : ℚ := (Nat.sqrt q.num.toNat : ℚ) / (Nat.sqrt q.den : ℚ)

/-- The vector `x e1 + y e2` with coefficients of type `double`. -/
def dblVec (x y : Double) : Multivector Double 2 := ⟨fun i => if i.val = 0 then x else y⟩

/-- Left contraction of two plane vectors in `double` arithmetic: the scalar
`a[0] * b[0] + a[1] * b[1]`. -/
def dblIp (a b : Multivector Double 2) : Multivector Double 1 :=
  ⟨fun _ => a.val 0 * b.val 0 + a.val 1 * b.val 1⟩

/-- Geometric product of two plane vectors in `double` arithmetic: scalar part
`a[0] * b[0] + a[1] * b[1]`, bivector part `a[0] * b[1] - a[1] * b[0]`. -/
def dblGp (a b : Multivector Double 2) : Multivector Double 2 :=
  ⟨fun i => if i.val = 0 then a.val 0 * b.val 0 + a.val 1 * b.val 1
    else a.val 0 * b.val 1 - a.val 1 * b.val 0⟩

end Multivector

namespace bits

/-! ## Bit-level lemmas -/

theorem toType_of_isType (x : Int) (h0 : -32768 ≤ x) (h1 : x ≤ 32767) : toType x = x := by
  unfold toType; omega

theorem shiftRight_one_natCast (n : Nat) : ((n : Int) >>> (1 : Nat)) = ((n / 2 : Nat) : Int) := by
  rw [Int.shiftRight_eq_div_pow]; simp

theorem land_one_natCast (n : Nat) : Int.land (n : Int) 1 = ((n % 2 : Nat) : Int) := by
  show Int.land (Int.ofNat n) (Int.ofNat 1) = _
  simp only [Int.land]
  rw [Nat.and_one_is_mod]

theorem testBit_natCast (n i : Nat) : Int.testBit (n : Int) i = n.testBit i := rfl

theorem popc_zero (w : Nat) : popc w 0 = 0 := by
  unfold popc
  apply Finset.sum_eq_zero
  intro i _
  have : Int.testBit 0 i = false := by
    show Int.testBit ((0 : Nat) : Int) i = false
    rw [testBit_natCast]; simp
  simp [this]

theorem popc_succ_natCast (w n : Nat) :
    popc (w + 1) (n : Int) = n % 2 + popc w ((n / 2 : Nat) : Int) := by
  unfold popc
  rw [Finset.sum_range_succ', add_comm]
  congr 1
  · rw [testBit_natCast, Nat.testBit_zero]
    rcases Nat.mod_two_eq_zero_or_one n with h | h <;> simp [h]
  · apply Finset.sum_congr rfl
    intro i _
    rw [testBit_natCast, testBit_natCast, Nat.testBit_succ]

theorem grade_natCast : ∀ (w n : Nat) (c : Int), n < 2 ^ w → 0 ≤ c → c + w ≤ 32767 →
    grade (n : Int) c = c + popc w (n : Int) := by
  intro w
  induction w with
  | zero =>
    intro n c hn _ _
    have : n = 0 := by simpa using hn
    subst this
    rw [grade]; simp [popc]
  | succ w ih =>
    intro n c hn hc hcw
    have hhalf : n / 2 < 2 ^ w := by
      rw [pow_succ] at hn; omega
    rw [grade, popc_succ_natCast, shiftRight_one_natCast, land_one_natCast]
    by_cases h0 : n = 0
    · subst h0; simp [popc_zero]
    · have hpos : (n : Int) > 0 := by omega
      rw [if_pos hpos]
      rcases Nat.mod_two_eq_zero_or_one n with h | h
      · have e := ih (n / 2) c hhalf hc (by push_cast at hcw ⊢; omega)
        rw [h]; simp only [Nat.cast_zero, ne_eq, not_true_eq_false, if_false, zero_add]
        exact e
      · have e := ih (n / 2) (c + 1) hhalf (by omega) (by push_cast at hcw ⊢; omega)
        rw [h, toType_of_isType (c + 1) (by omega) (by push_cast at hcw; omega)]
        simp only [Nat.cast_one, ne_eq, one_ne_zero, not_false_eq_true, if_true]
        rw [e]; push_cast; ring



theorem dimOf_natCast : ∀ (w n : Nat) (dim : Int), n < 2 ^ w → 0 ≤ dim → dim + w ≤ 32767 →
    ∃ k : Nat, k ≤ w ∧ dimOf (n : Int) dim = dim + k ∧ (n = 0 → k = 0) ∧
      (n ≠ 0 → 2 ^ (k - 1) ≤ n ∧ n < 2 ^ k) := by
  intro w
  induction w with
  | zero =>
    intro n dim hn _ _
    have : n = 0 := by simpa using hn
    subst this
    refine ⟨0, le_refl _, ?_, fun _ => rfl, fun h => absurd rfl h⟩
    rw [dimOf]; simp
  | succ w ih =>
    intro n dim hn hd hdw
    by_cases h0 : n = 0
    · subst h0
      refine ⟨0, Nat.zero_le _, ?_, fun _ => rfl, fun h => absurd rfl h⟩
      rw [dimOf]; simp
    · have hhalf : n / 2 < 2 ^ w := by
        rw [pow_succ] at hn; omega
      have hpos : (n : Int) > 0 := by omega
      obtain ⟨k, hk, hdim, hz, hnz⟩ :=
        ih (n / 2) (dim + 1) hhalf (by omega) (by push_cast at hdw ⊢; omega)
      refine ⟨k + 1, by omega, ?_, fun h => absurd h h0, fun _ => ?_⟩
      · rw [dimOf, if_pos hpos, shiftRight_one_natCast,
          toType_of_isType (dim + 1) (by omega) (by push_cast at hdw; omega), hdim]
        push_cast; ring
      · by_cases h2 : n / 2 = 0
        · have hk0 := hz h2
          subst hk0
          have : n = 1 := by omega
          subst this
          simp
        · obtain ⟨hlo, hhi⟩ := hnz h2
          have hk1 : 1 ≤ k := by
            rcases Nat.eq_zero_or_pos k with hk0 | hk0
            · subst hk0; simp at hhi; omega
            · exact hk0
          constructor
          · have : k + 1 - 1 = (k - 1) + 1 := by omega
            rw [this, pow_succ]; omega
          · rw [pow_succ]; omega



theorem popc_succ (w : Nat) (b : Int) :
    popc (w + 1) b = popc w b + (if b.testBit w = true then 1 else 0) := by
  unfold popc
  rw [Finset.sum_range_succ]

theorem land_natCast (m : Nat) (b : Int) :
    ∃ x : Nat, Int.land (m : Int) b = (x : Int) ∧ x ≤ m := by
  cases b with
  | ofNat k => exact ⟨m &&& k, rfl, Nat.and_le_left⟩
  | negSucc k =>
    refine ⟨Nat.ldiff m k, rfl, ?_⟩
    apply Nat.le_of_testBit
    intro i hi
    rw [Nat.testBit_ldiff] at hi
    simp at hi
    exact hi.1

theorem popc_land (w : Nat) (a b : Int) :
    popc w (Int.land a b) =
      ∑ i in Finset.range w, if (a.testBit i = true ∧ b.testBit i = true) then 1 else 0 := by
  unfold popc
  apply Finset.sum_congr rfl
  intro i _
  rw [Int.testBit_land]
  simp

theorem cr_zero_left (w : Nat) (b : Int) : cr w 0 b = 0 := by
  unfold cr
  apply Finset.sum_eq_zero
  intro i _
  have : Int.testBit 0 i = false := by
    show Int.testBit ((0 : Nat) : Int) i = false
    rw [testBit_natCast]; simp
  simp [this]

theorem cr_succ_natCast (w m : Nat) (b : Int) :
    cr (w + 1) (m : Int) b
      = cr w ((m / 2 : Nat) : Int) b + popc w (Int.land ((m / 2 : Nat) : Int) b) := by
  rw [popc_land]
  unfold cr
  rw [Finset.sum_range_succ', ← Finset.sum_add_distrib]
  have h0 : popc 0 b = 0 := by simp [popc]
  rw [h0]
  simp only [ite_self, add_zero]
  apply Finset.sum_congr rfl
  intro i _
  rw [testBit_natCast, testBit_natCast, Nat.testBit_succ, popc_succ]
  by_cases ha : (m / 2).testBit i = true <;> by_cases hb : b.testBit i = true <;> simp [ha, hb]

theorem land_one_odd (c : Int) (hc : 0 ≤ c) : Int.land c 1 ≠ 0 ↔ c % 2 = 1 := by
  obtain ⟨n, rfl⟩ := Int.eq_ofNat_of_zero_le hc
  rw [land_one_natCast]
  rcases Nat.mod_two_eq_zero_or_one n with h | h
  · rw [h]; simp; omega
  · rw [h]; simp; omega

theorem signFlip_natCast : ∀ (w m : Nat) (b c : Int), m < 2 ^ w → w ≤ 16 → 0 ≤ c →
    signFlip (m : Int) b c = decide ((c + cr w (m : Int) b) % 2 = 1) := by
  intro w
  induction w with
  | zero =>
    intro m b c hm _ hc
    have : m = 0 := by simpa using hm
    subst this
    rw [signFlip]
    have := land_one_odd c hc
    simp [cr, this]
  | succ w ih =>
    intro m b c hm hw hc
    have hhalf : m / 2 < 2 ^ w := by
      rw [pow_succ] at hm; omega
    rw [signFlip, shiftRight_one_natCast, cr_succ_natCast]
    by_cases h0 : m / 2 = 0
    · rw [h0]
      have := land_one_odd c hc
      have hz : Int.land ((0 : Nat) : Int) b = ((0 : Nat) : Int) := by
        obtain ⟨x, hx, hle⟩ := land_natCast 0 b
        have : x = 0 := by omega
        rw [hx, this]
      rw [hz]
      simp [cr_zero_left, popc_zero, this]
    · have hpos : ((m / 2 : Nat) : Int) > 0 := by omega
      rw [if_pos hpos]
      obtain ⟨x, hx, hle⟩ := land_natCast (m / 2) b
      have hg : grade (Int.land ((m / 2 : Nat) : Int) b) = popc w (Int.land ((m / 2 : Nat) : Int) b) := by
        rw [hx]
        have := grade_natCast w x 0 (by omega) (le_refl _) (by omega)
        rw [this]; simp
      rw [hg, ih (m / 2) b _ hhalf (by omega) (by positivity)]
      rw [decide_eq_decide]
      push_cast
      constructor <;> intro h <;> omega



theorem popc_eq_sum_lt (w i : Nat) (hi : i ≤ w) (b : Int) :
    (∑ j in Finset.range w, if (b.testBit j = true ∧ i > j) then 1 else 0) = popc i b := by
  unfold popc
  have hr : Finset.range i = (Finset.range w).filter (fun j => j < i) := by
    ext j; simp; omega
  rw [hr, Finset.sum_filter]
  apply Finset.sum_congr rfl
  intro j _
  by_cases h1 : b.testBit j = true <;> by_cases h2 : j < i <;> simp [h1, h2]

theorem crossings_eq_cr (a b : Int) : crossings a b = cr 16 a b := by
  unfold crossings cr
  rw [Finset.card_filter, Finset.sum_product]
  apply Finset.sum_congr rfl
  intro i hi
  have hi16 : i ≤ 16 := by
    have := Finset.mem_range.mp hi; omega
  by_cases ha : a.testBit i = true
  · simp only [ha, true_and, if_true]
    exact popc_eq_sum_lt 16 i hi16 b
  · simp [ha]

theorem popc_xor_land (w : Nat) (a b : Int) :
    popc w (Int.xor a b) + 2 * popc w (Int.land a b) = popc w a + popc w b := by
  unfold popc
  rw [Finset.mul_sum, ← Finset.sum_add_distrib, ← Finset.sum_add_distrib]
  apply Finset.sum_congr rfl
  intro i _
  rw [Int.testBit_lxor, Int.testBit_land]
  cases a.testBit i <;> cases b.testBit i <;> simp

theorem popc_natCast_eq_zero (w n : Nat) (hn : n < 2 ^ w) : popc w (n : Int) = 0 ↔ n = 0 := by
  constructor
  · intro h
    unfold popc at h
    rw [Finset.sum_eq_zero_iff] at h
    apply Nat.eq_of_testBit_eq
    intro i
    rw [Nat.zero_testBit]
    by_cases hi : i < w
    · have := h i (Finset.mem_range.mpr hi)
      rw [testBit_natCast] at this
      simpa using this
    · apply Nat.testBit_lt_two_pow
      exact lt_of_lt_of_le hn (Nat.pow_le_pow_right (by norm_num) (by omega))
  · intro h
    subst h
    exact popc_zero w

theorem popc_land_natCast_eq (w m k : Nat) (hm : m < 2 ^ w) :
    popc w ((m &&& k : Nat) : Int) = popc w (m : Int) ↔ m &&& k = m := by
  constructor
  · intro h
    unfold popc at h
    have hle : ∀ i ∈ Finset.range w,
        (if Int.testBit ((m &&& k : Nat) : Int) i = true then 1 else 0)
          ≤ (if Int.testBit (m : Int) i = true then 1 else 0) := by
      intro i _
      rw [testBit_natCast, testBit_natCast, Nat.testBit_and]
      cases m.testBit i <;> cases k.testBit i <;> simp
    have hpt := (Finset.sum_eq_sum_iff_of_le hle).mp h
    apply Nat.eq_of_testBit_eq
    intro i
    by_cases hi : i < w
    · have := hpt i (Finset.mem_range.mpr hi)
      rw [testBit_natCast, testBit_natCast] at this
      revert this
      rw [Nat.testBit_and]
      cases m.testBit i <;> cases k.testBit i <;> simp
    · have hmi : m.testBit i = false := by
        apply Nat.testBit_lt_two_pow
        exact lt_of_lt_of_le hm (Nat.pow_le_pow_right (by norm_num) (by omega))
      rw [Nat.testBit_and, hmi]; simp
  · intro h
    rw [h]

theorem grade_natCast16 (n : Nat) (hn : n < 2 ^ 16) : grade (n : Int) = (popc 16 (n : Int) : Int) := by
  have := grade_natCast 16 n 0 hn (le_refl _) (by norm_num)
  rw [this]; simp

theorem inner_natCast (m k : Nat) (hm : m < 2 ^ 15) (hk : k < 2 ^ 15) :
    inner (m : Int) (k : Int) = true ↔ Int.land (m : Int) (k : Int) = (m : Int) := by
  have hx : Int.xor (m : Int) (k : Int) = ((m ^^^ k : Nat) : Int) := rfl
  have hl : Int.land (m : Int) (k : Int) = ((m &&& k : Nat) : Int) := rfl
  have hm16 : m < 2 ^ 16 := by omega
  have hk16 : k < 2 ^ 16 := by omega
  have hxlt : m ^^^ k < 2 ^ 16 := Nat.xor_lt_two_pow hm16 hk16
  have hid := popc_xor_land 16 (m : Int) (k : Int)
  rw [hx, hl] at hid
  have hiff := popc_land_natCast_eq 16 m k hm16
  unfold inner
  rw [hx, hl, grade_natCast16 m hm16, grade_natCast16 k hk16, grade_natCast16 _ hxlt]
  simp only [Bool.not_eq_true', Bool.or_eq_false_iff, decide_eq_false_iff_not, not_not]
  constructor
  · rintro ⟨_, h2⟩
    have : popc 16 ((m &&& k : Nat) : Int) = popc 16 (m : Int) := by omega
    rw [hiff.mp this]
  · intro h
    have h' : m &&& k = m := by exact_mod_cast h
    have := hiff.mpr h'
    constructor <;> omega

theorem outer_iff (a b : Int) : outer a b = true ↔ Int.land a b = 0 := by
  unfold outer; simp

theorem grade_product_natCast (m k : Nat) (hm : m < 2 ^ 15) (hk : k < 2 ^ 15) :
    Int.land (m : Int) (k : Int) = 0 ↔
      grade (product (m : Int) (k : Int)) = grade (m : Int) + grade (k : Int) := by
  have hx : Int.xor (m : Int) (k : Int) = ((m ^^^ k : Nat) : Int) := rfl
  have hl : Int.land (m : Int) (k : Int) = ((m &&& k : Nat) : Int) := rfl
  have hm16 : m < 2 ^ 16 := by omega
  have hk16 : k < 2 ^ 16 := by omega
  have hxlt : m ^^^ k < 2 ^ 16 := Nat.xor_lt_two_pow hm16 hk16
  have hllt : m &&& k < 2 ^ 16 := lt_of_le_of_lt Nat.and_le_left hm16
  have hid := popc_xor_land 16 (m : Int) (k : Int)
  rw [hx, hl] at hid
  have hz := popc_natCast_eq_zero 16 (m &&& k) hllt
  unfold product
  rw [hx, hl, grade_natCast16 m hm16, grade_natCast16 k hk16, grade_natCast16 _ hxlt]
  constructor
  · intro h
    have h' : m &&& k = 0 := by exact_mod_cast h
    have := hz.mpr h'
    omega
  · intro h
    have : popc 16 ((m &&& k : Nat) : Int) = 0 := by omega
    rw [hz.mp this]; rfl



theorem cpow_natCast (x : Int) : ∀ n : Nat, cpow x (n : Int) = x ^ n := by
  intro n
  induction n with
  | zero => rw [cpow]; simp
  | succ n ih =>
    rw [cpow, if_pos (by omega)]
    have : ((n + 1 : Nat) : Int) - 1 = (n : Int) := by omega
    rw [this, ih, pow_succ, mul_comm]

theorem cpow_neg_one_eq (N : Int) (hN : 0 ≤ N) : cpow (-1) N = -1 ↔ N % 2 = 1 := by
  obtain ⟨n, rfl⟩ := Int.eq_ofNat_of_zero_le hN
  rw [cpow_natCast]
  rcases Nat.even_or_odd n with h | h
  · rw [Even.neg_one_pow h]
    obtain ⟨k, hk⟩ := h
    constructor
    · intro h1; exact absurd h1 (by decide)
    · intro h1; omega
  · rw [Odd.neg_one_pow h]
    obtain ⟨k, hk⟩ := h
    constructor
    · intro _; omega
    · intro _; rfl

theorem grade_of_nonpos (a : Int) (h : a ≤ 0) : grade a = 0 := by
  rw [grade, if_neg (by omega)]

theorem popc_le (w : Nat) (a : Int) : popc w a ≤ w := by
  unfold popc
  calc (∑ i in Finset.range w, if a.testBit i = true then 1 else 0)
      ≤ ∑ _i in Finset.range w, 1 := by
        apply Finset.sum_le_sum
        intro i _
        split <;> simp
    _ = w := by simp

theorem grade_range (a : Int) (h : isType a) : 0 ≤ grade a ∧ grade a ≤ 15 := by
  obtain ⟨_, h1⟩ := h
  by_cases hpos : 0 ≤ a
  · obtain ⟨n, rfl⟩ := Int.eq_ofNat_of_zero_le hpos
    have hn : n < 2 ^ 15 := by
      have : (n : Int) < 2 ^ 15 := by omega
      exact_mod_cast this
    have := grade_natCast 15 n 0 hn (le_refl _) (by norm_num)
    rw [this]
    have := popc_le 15 (n : Int)
    omega
  · rw [grade_of_nonpos a (by omega)]; omega

theorem popc16_eq_popcount (a : Int) : popc 16 a = popcount a := by
  unfold popc popcount
  rw [Finset.card_filter]


theorem makeBlade_eq (i : Nat) (h1 : 1 ≤ i) (h15 : i ≤ 15) :
    makeBlade i = ((2 ^ (i - 1) : Nat) : Int) := by
  interval_cases i <;> decide

theorem makeBlade_large (i : Nat) (h : 17 ≤ i) : makeBlade i = 0 := by
  obtain ⟨k, rfl⟩ : ∃ k, i = k + 17 := ⟨i - 17, by omega⟩
  unfold makeBlade
  have e : ((k + 17 : Nat) : Int) - 1 = ((k + 16 : Nat) : Int) := by push_cast; ring
  rw [e]
  show toType (((1 : Nat) : Int) <<< ((k + 16 : Nat) : Int)) = 0
  rw [Int.shiftLeft_coe_nat]
  rw [Nat.shiftLeft_eq, one_mul]
  unfold toType
  have : ((2 ^ (k + 16) : Nat) : Int) = 65536 * ((2 ^ k : Nat) : Int) := by
    rw [pow_add]; push_cast; ring
  rw [this]
  omega



theorem popc_two_pow (p q : Nat) :
    popc p (((2 ^ q : Nat)) : Int) = if q < p then 1 else 0 := by
  unfold popc
  simp only [testBit_natCast, Nat.testBit_two_pow, decide_eq_true_eq]
  rw [Finset.sum_ite_eq]
  simp

theorem cr_two_pow (w p : Nat) (hp : p < w) (b : Int) :
    cr w (((2 ^ p : Nat)) : Int) b = popc p b := by
  unfold cr
  simp only [testBit_natCast, Nat.testBit_two_pow, decide_eq_true_eq]
  rw [Finset.sum_ite_eq]
  simp [hp]

theorem signFlip_makeBlade (i j : Nat) (hi1 : 1 ≤ i) (hi : i ≤ 15) (hj1 : 1 ≤ j) (hj : j ≤ 15) :
    signFlip (makeBlade i) (makeBlade j) = decide (j < i) := by
  rw [makeBlade_eq i hi1 hi, makeBlade_eq j hj1 hj]
  have hlt : 2 ^ (i - 1) < 2 ^ 16 := Nat.pow_lt_pow_right (by norm_num) (by omega)
  rw [signFlip_natCast 16 _ _ 0 hlt (le_refl _) (le_refl _), cr_two_pow 16 (i - 1) (by omega),
    popc_two_pow]
  by_cases h : j < i
  · have h' : j - 1 < i - 1 := by omega
    simp [h, h']
  · have h' : ¬ (j - 1 < i - 1) := by omega
    simp [h, h']

theorem pss_eq (d : Nat) (hd : d ≤ 15) : pss d = 2 ^ d - 1 := by
  interval_cases d <;> decide

theorem dimOf_pss (d : Nat) (hd : d ≤ 15) : dimOf (pss d) = d := by
  have hnat : pss d = ((2 ^ d - 1 : Nat) : Int) := by
    interval_cases d <;> decide
  rw [hnat]
  have hlt : 2 ^ d - 1 < 2 ^ d := by
    have : 0 < 2 ^ d := by positivity
    omega
  obtain ⟨k, hk, hdim, hz, hnz⟩ := dimOf_natCast d (2 ^ d - 1) 0 hlt (le_refl _) (by omega)
  rw [hdim, zero_add]
  by_cases h0 : 2 ^ d - 1 = 0
  · have hk0 := hz h0
    have : d = 0 := by
      rcases Nat.eq_zero_or_pos d with h | h
      · exact h
      · have : 2 ^ 1 ≤ 2 ^ d := Nat.pow_le_pow_right (by norm_num) h
        omega
    rw [hk0, this]
  · obtain ⟨_, hhi⟩ := hnz h0
    have : d ≤ k := by
      by_contra hlt2
      have : 2 ^ (k + 1) ≤ 2 ^ d := Nat.pow_le_pow_right (by norm_num) (by omega)
      rw [pow_succ] at this
      omega
    have : k = d := by omega
    rw [this]

theorem xor_self_eq_zero (x : Int) : Int.xor x x = 0 := by
  cases x with
  | ofNat n => simp [Int.xor]
  | negSucc n => simp [Int.xor]

theorem signFlip_of_neg (a b : Int) (h : a < 0) : signFlip a b = false := by
  rw [signFlip, if_neg]
  · decide
  · rw [Int.shiftRight_eq_div_pow]; simp; omega



theorem cpow_neg_one_iff (N : Int) : cpow (-1) N = -1 ↔ (0 ≤ N ∧ N % 2 = 1) := by
  by_cases hN : 0 ≤ N
  · rw [cpow_neg_one_eq N hN]
    exact ⟨fun h => ⟨hN, h⟩, fun h => h.2⟩
  · rw [cpow, if_neg (by omega)]
    constructor
    · intro h; exact absurd h (by decide)
    · intro h; exact absurd h.1 hN

theorem land_natCast_eq_zero (m : Nat) (b : Int)
    (h : ∀ i, m.testBit i = true → b.testBit i = false) : Int.land (m : Int) b = 0 := by
  obtain ⟨x, hx, _⟩ := land_natCast m b
  have hx0 : x = 0 := by
    apply Nat.eq_of_testBit_eq
    intro i
    have e : x.testBit i = Int.testBit (Int.land (m : Int) b) i := by rw [hx]; rfl
    rw [e, Int.testBit_land, Nat.zero_testBit]
    by_cases hm : m.testBit i = true
    · rw [h i hm]; simp
    · have : Int.testBit (m : Int) i = false := by
        show m.testBit i = false
        simpa using hm
      rw [this]; rfl
  rw [hx, hx0]; rfl

theorem land_one_sign_bit : Int.land 1 (-32768) = 0 := by
  apply land_natCast_eq_zero 1
  intro i hi
  have : i = 0 := by
    by_contra h
    obtain ⟨k, rfl⟩ : ∃ k, i = k + 1 := ⟨i - 1, by omega⟩
    rw [Nat.testBit_succ] at hi
    simp at hi
  subst this
  decide

theorem land_sign_bit_one : Int.land (-32768) 1 = 0 := land_one_sign_bit

/-! ## The blade functions on blades whose sign bit is clear -/

theorem exists_natCast_of_nonneg (a : Int) (h0 : 0 ≤ a) (h1 : a ≤ 32767) :
    ∃ n : Nat, a = (n : Int) ∧ n < 2 ^ 15 := by
  obtain ⟨n, rfl⟩ := Int.eq_ofNat_of_zero_le h0
  refine ⟨n, rfl, ?_⟩
  have : (n : Int) < 2 ^ 15 := by omega
  exact_mod_cast this

/-- On blades with the sign bit clear `grade` counts the set bits. -/
theorem grade_eq_popcount_of_nonneg (a : Int) (h0 : 0 ≤ a) (h1 : a ≤ 32767) :
    grade a = (popcount a : Int) := by
  obtain ⟨n, rfl, hn⟩ := exists_natCast_of_nonneg a h0 h1
  rw [grade_natCast16 n (by omega), popc16_eq_popcount]

/-- When the sign bit of `a` is clear, `signFlip a b` is the parity of the
number of pairs `(i, j)` with bit `i` of `a`, bit `j` of `b` and `i > j`,
for every `b`. -/
theorem signFlip_eq_crossings_of_nonneg (a b : Int) (h0 : 0 ≤ a) (h1 : a ≤ 32767) :
    signFlip a b = decide (crossings a b % 2 = 1) := by
  obtain ⟨n, rfl, hn⟩ := exists_natCast_of_nonneg a h0 h1
  have hlt : n < 2 ^ 16 := by omega
  have hs := signFlip_natCast 16 n b 0 hlt (le_refl _) (le_refl _)
  have hc := crossings_eq_cr (n : Int) b
  rw [hs, hc]
  rw [decide_eq_decide]
  constructor <;> intro h <;> omega

/-- On blades with the sign bit clear `inner a b` holds exactly when every
basis vector of `a` is a basis vector of `b`. -/
theorem inner_iff_of_nonneg (a b : Int) (ha0 : 0 ≤ a) (ha1 : a ≤ 32767)
    (hb0 : 0 ≤ b) (hb1 : b ≤ 32767) : inner a b = true ↔ Int.land a b = a := by
  obtain ⟨m, rfl, hm⟩ := exists_natCast_of_nonneg a ha0 ha1
  obtain ⟨k, rfl, hk⟩ := exists_natCast_of_nonneg b hb0 hb1
  exact inner_natCast m k hm hk

/-- Whenever `inner a b` holds, the grades satisfy the two conditions the
source tests, for all `a` and `b`. -/
theorem inner_grades (a b : Int) (h : inner a b = true) :
    grade a ≤ grade b ∧ grade (Int.xor a b) = grade b - grade a := by
  unfold inner at h
  simp only [Bool.not_eq_true', Bool.or_eq_false_iff, decide_eq_false_iff_not, not_not] at h
  exact ⟨by omega, h.2⟩

/-- For a positive blade `b`, `dimOf b` is one more than the position of the
highest set bit. -/
theorem dimOf_bounds_of_pos (b : Int) (h0 : 0 < b) (h1 : b ≤ 32767) :
    1 ≤ dimOf b ∧ (2 : Int) ^ (dimOf b - 1).toNat ≤ b ∧ b < (2 : Int) ^ (dimOf b).toNat := by
  obtain ⟨n, rfl, hn⟩ := exists_natCast_of_nonneg b (le_of_lt h0) h1
  obtain ⟨k, _, hdim, _, hnz⟩ := dimOf_natCast 15 n 0 hn (le_refl _) (by norm_num)
  have hn0 : n ≠ 0 := by omega
  obtain ⟨hlo, hhi⟩ := hnz hn0
  have hk1 : 1 ≤ k := by
    rcases Nat.eq_zero_or_pos k with hk0 | hk0
    · subst hk0; simp at hhi; omega
    · exact hk0
  rw [hdim, zero_add]
  have e1 : ((k : Int) - 1).toNat = k - 1 := by omega
  have e2 : ((k : Int)).toNat = k := by omega
  rw [e1, e2]
  refine ⟨by omega, ?_, ?_⟩
  · exact_mod_cast hlo
  · exact_mod_cast hhi

theorem dimOf_zero : dimOf 0 = 0 := by
  rw [dimOf]; simp

/-- For blades with the sign bit clear the product blade keeps every vector
of both factors exactly when the factors share none. -/
theorem outer_grade_iff_of_nonneg (a b : Int) (ha0 : 0 ≤ a) (ha1 : a ≤ 32767)
    (hb0 : 0 ≤ b) (hb1 : b ≤ 32767) :
    Int.land a b = 0 ↔ grade (product a b) = grade a + grade b := by
  obtain ⟨m, rfl, hm⟩ := exists_natCast_of_nonneg a ha0 ha1
  obtain ⟨k, rfl, hk⟩ := exists_natCast_of_nonneg b hb0 hb1
  exact grade_product_natCast m k hm hk

/-- Up to dimension 15 the pseudoscalar is `2^d - 1` and `dimOf` recovers `d`. -/
theorem pss_dimOf_of_le (d : Nat) (hd : d ≤ 15) : pss d = 2 ^ d - 1 ∧ dimOf (pss d) = d :=
  ⟨pss_eq d hd, dimOf_pss d hd⟩

/-- The outer product of two distinct basis vectors among the first 15 is
antisymmetric. -/
theorem outer_antisymm_of_le (i j : Nat) (hi1 : 1 ≤ i) (hi : i ≤ 15) (hj1 : 1 ≤ j) (hj : j ≤ 15)
    (hne : i ≠ j) :
    outer (makeBlade i) (makeBlade j) = true ∧ outer (makeBlade j) (makeBlade i) = true ∧
    product (makeBlade i) (makeBlade j) = product (makeBlade j) (makeBlade i) ∧
    signFlip (makeBlade i) (makeBlade j) ≠ signFlip (makeBlade j) (makeBlade i) := by
  have hl : ∀ p q : Nat, p ≠ q → Int.land ((2 ^ p : Nat) : Int) ((2 ^ q : Nat) : Int) = 0 := by
    intro p q hpq
    show ((2 ^ p &&& 2 ^ q : Nat) : Int) = 0
    have : 2 ^ p &&& 2 ^ q = 0 := by
      apply Nat.eq_of_testBit_eq
      intro t
      rw [Nat.testBit_and, Nat.testBit_two_pow, Nat.testBit_two_pow, Nat.zero_testBit]
      by_cases h1 : p = t <;> by_cases h2 : q = t <;> simp [h1, h2]
      omega
    rw [this]; rfl
  have hx : ∀ m k : Nat, Int.xor (m : Int) (k : Int) = Int.xor (k : Int) (m : Int) := by
    intro m k
    show ((m ^^^ k : Nat) : Int) = ((k ^^^ m : Nat) : Int)
    rw [Nat.xor_comm]
  refine ⟨?_, ?_, ?_, ?_⟩
  · rw [outer_iff, makeBlade_eq i hi1 hi, makeBlade_eq j hj1 hj]
    exact hl _ _ (by omega)
  · rw [outer_iff, makeBlade_eq i hi1 hi, makeBlade_eq j hj1 hj]
    exact hl _ _ (by omega)
  · rw [makeBlade_eq i hi1 hi, makeBlade_eq j hj1 hj]
    exact hx _ _
  · rw [signFlip_makeBlade i j hi1 hi hj1 hj, signFlip_makeBlade j i hj1 hj hi1 hi]
    by_cases h : j < i
    · have h' : ¬ i < j := by omega
      simp [h, h']
    · have h' : i < j := by omega
      simp [h, h']

/-! ## Properties of the blade encoding -/

/-- C1: `grade` is meant to count the set bits of a blade.  For the blade of
the 16th basis vector, `makeBlade 16 = -32768` (only bit 15 set), the source
returns grade 0 although one bit is set: the test `a > 0` stops at once on a
blade whose sign bit is set. -/
theorem grade_sixteenth_vector :
    makeBlade 16 = -32768 ∧ isType (-32768) ∧ grade (-32768) = 0 ∧ popcount (-32768) = 1 := by
  refine ⟨by decide, by decide, ?_, by decide⟩
  rw [grade, if_neg (by decide)]

set_option maxRecDepth 100000 in
/-- C2: `signFlip a b` is meant to be the parity of the number of pairs
`(i, j)` with bit `i` of `a`, bit `j` of `b` and `i > j`.  For `a = -32768`
(the 16th basis vector) and `b = 1` (the first) there is exactly one such
pair, `(15, 0)`, yet the source returns `false`: `(a >> 1) > 0` fails on a
negative `a`. -/
theorem signFlip_sixteenth_first :
    signFlip (-32768) 1 = false ∧ crossings (-32768) 1 = 1 := by
  refine ⟨signFlip_of_neg _ _ (by decide), by decide⟩

/-- C3: `inner a b` is meant to hold exactly when `a` is a sub-blade of `b`.
For `a = -32768` (the 16th basis vector) and the scalar blade `b = 0` the
source answers `true` although `a & b = 0` differs from `a`: both grades are
computed as 0. -/
theorem inner_sixteenth_scalar :
    inner (-32768) 0 = true ∧ Int.land (-32768) 0 ≠ -32768 := by
  refine ⟨?_, by decide⟩
  have hx : Int.xor (-32768) 0 = -32768 := by decide
  unfold inner
  rw [hx, grade_of_nonpos (-32768) (by decide), grade_of_nonpos 0 (by decide)]
  decide

/-- C4: `dimOf b` is meant to be one more than the position of the highest
set bit of a nonzero blade.  For `b = -32768` the highest set bit is bit 15,
but the source returns 0 instead of 16. -/
theorem dimOf_sixteenth_vector :
    (-32768 : Int) ≠ 0 ∧ Int.testBit (-32768) 15 = true ∧ dimOf (-32768) = 0 := by
  refine ⟨by decide, by decide, ?_⟩
  rw [dimOf, if_neg (by decide)]

/-- C5: `dimOf (pss d)` is meant to be `d`.  For `d = 16` the pseudoscalar has
all 16 bits set, which is the `short` value `-1`, and the source computes
`dimOf (pss 16) = 0`. -/
theorem dimOf_pss_sixteen :
    pss 16 = -1 ∧ popcount (pss 16) = 16 ∧ dimOf (pss 16) = 0 := by
  have h : pss 16 = -1 := by decide
  refine ⟨h, ?_, ?_⟩
  · rw [h]; decide
  · rw [h, dimOf, if_neg (by decide)]

/-- C6: a basis vector multiplied by itself gives the scalar blade with no
sign flip: for every basis-vector index `i ≥ 1`,
`product (makeBlade i) (makeBlade i) = 0` and
`signFlip (makeBlade i) (makeBlade i) = false`. -/
theorem vector_square (i : Nat) (hi : 1 ≤ i) :
    product (makeBlade i) (makeBlade i) = 0 ∧
      signFlip (makeBlade i) (makeBlade i) = false := by
  refine ⟨xor_self_eq_zero _, ?_⟩
  by_cases h15 : i ≤ 15
  · rw [signFlip_makeBlade i i hi h15 hi h15]
    simp
  · by_cases h16 : i = 16
    · subst h16
      have : makeBlade 16 = -32768 := by decide
      rw [this]
      exact signFlip_of_neg _ _ (by decide)
    · rw [makeBlade_large i (by omega), signFlip, if_neg (by decide)]
      decide

theorem vector_square_witness :
    1 ≤ 3 ∧ product (makeBlade 3) (makeBlade 3) = 0 ∧
      signFlip (makeBlade 3) (makeBlade 3) = false :=
  ⟨by decide, vector_square 3 (by decide)⟩

/-- C7: the outer product of two distinct basis vectors is meant to change
sign when the factors are swapped.  For the indices 16 and 1 both orders are
admitted by `outer` and give the same blade, but `signFlip` is `false` in both
orders, so the two products get the same sign. -/
theorem outer_sixteenth_first :
    outer (makeBlade 16) (makeBlade 1) = true ∧ outer (makeBlade 1) (makeBlade 16) = true ∧
    product (makeBlade 16) (makeBlade 1) = product (makeBlade 1) (makeBlade 16) ∧
    signFlip (makeBlade 16) (makeBlade 1) = false ∧
    signFlip (makeBlade 1) (makeBlade 16) = false := by
  have h16 : makeBlade 16 = -32768 := by decide
  have h1 : makeBlade 1 = 1 := by decide
  rw [h16, h1]
  refine ⟨?_, ?_, by decide, signFlip_of_neg _ _ (by decide), ?_⟩
  · rw [outer_iff]; exact land_sign_bit_one
  · rw [outer_iff]; exact land_one_sign_bit
  · rw [signFlip, if_neg (by decide)]
    decide

/-- C8: the product blade is meant to keep every vector of both factors only
when the factors share none.  For `a = b = -32768` the factors share bit 15
(`outer` is `false`), yet the source computes
`grade (product a b) = grade a + grade b`, all three grades being 0. -/
theorem outer_grade_sixteenth :
    outer (-32768) (-32768) = false ∧ Int.land (-32768) (-32768) ≠ 0 ∧
    grade (product (-32768) (-32768)) = grade (-32768) + grade (-32768) := by
  refine ⟨by decide, by decide, ?_⟩
  have hx : product (-32768) (-32768) = 0 := by decide
  rw [hx, grade_of_nonpos (-32768) (by decide), grade_of_nonpos 0 (by decide)]
  decide

/-- C9: for every blade `a` with `g = grade a`: `reverse a` holds iff
`(-1)^(g(g-1)/2) = -1`, that is iff `g mod 4` is 2 or 3; `involute a` holds
iff `(-1)^g = -1`, that is iff `g` is odd; `conjugate a` holds iff
`(-1)^(g(g+1)/2) = -1`, that is iff `g mod 4` is 1 or 2. -/
theorem reverse_involute_conjugate_parity (a : Int) (h : isType a) :
    (reverse a = true ↔ (-1 : Int) ^ (grade a * (grade a - 1) / 2).toNat = -1) ∧
    (reverse a = true ↔ (grade a % 4 = 2 ∨ grade a % 4 = 3)) ∧
    (involute a = true ↔ (-1 : Int) ^ (grade a).toNat = -1) ∧
    (involute a = true ↔ grade a % 2 = 1) ∧
    (conjugate a = true ↔ (-1 : Int) ^ (grade a * (grade a + 1) / 2).toNat = -1) ∧
    (conjugate a = true ↔ (grade a % 4 = 1 ∨ grade a % 4 = 2)) := by
  obtain ⟨h0, h15⟩ := grade_range a h
  unfold reverse involute conjugate
  simp only [decide_eq_true_eq, cpow_neg_one_iff]
  generalize grade a = g at h0 h15
  interval_cases g <;> decide

theorem reverse_involute_conjugate_parity_witness :
    isType 7 ∧
    ((reverse 7 = true ↔ (-1 : Int) ^ (grade 7 * (grade 7 - 1) / 2).toNat = -1) ∧
    (reverse 7 = true ↔ (grade 7 % 4 = 2 ∨ grade 7 % 4 = 3)) ∧
    (involute 7 = true ↔ (-1 : Int) ^ (grade 7).toNat = -1) ∧
    (involute 7 = true ↔ grade 7 % 2 = 1) ∧
    (conjugate 7 = true ↔ (-1 : Int) ^ (grade 7 * (grade 7 + 1) / 2).toNat = -1) ∧
    (conjugate 7 = true ↔ (grade 7 % 4 = 1 ∨ grade 7 % 4 = 2))) :=
  ⟨by decide, reverse_involute_conjugate_parity 7 (by decide)⟩

/-- C10: `lessThan A B` (and `compare`) is the grade-major order: it holds iff
`grade A < grade B`, or `grade A = grade B` and `A < B`; it is irreflexive and
transitive, for `A ≠ B` exactly one of `lessThan A B`, `lessThan B A` holds,
and `greaterThan A B = lessThan B A`. -/
theorem lessThan_strict_total_order (A B C : Int) :
    (lessThan A B = true ↔ (grade A < grade B ∨ (grade A = grade B ∧ A < B))) ∧
    compare A B = lessThan A B ∧
    lessThan A A = false ∧
    (lessThan A B = true → lessThan B C = true → lessThan A C = true) ∧
    (A ≠ B → ((lessThan A B = true ∧ lessThan B A = false) ∨
              (lessThan A B = false ∧ lessThan B A = true))) ∧
    greaterThan A B = lessThan B A := by
  unfold lessThan compare greaterThan
  generalize grade A = gA
  generalize grade B = gB
  generalize grade C = gC
  refine ⟨?_, rfl, ?_, ?_, ?_, ?_⟩
  · split_ifs with h <;> simp only [decide_eq_true_eq] <;> constructor <;> intro h' <;> omega
  · simp
  · split_ifs <;> simp only [decide_eq_true_eq] <;> intro h1 h2 <;> omega
  · intro hne
    split_ifs <;> simp only [decide_eq_true_eq, decide_eq_false_iff_not] <;> omega
  · split_ifs <;> first | rfl | omega

theorem lessThan_strict_total_order_witness :
    (lessThan 4 3 = true ↔ (grade 4 < grade 3 ∨ (grade 4 = grade 3 ∧ (4 : Int) < 3))) ∧
    compare 4 3 = lessThan 4 3 ∧
    lessThan 4 4 = false ∧
    (lessThan 4 3 = true → lessThan 3 7 = true → lessThan 4 7 = true) ∧
    ((4 : Int) ≠ 3 → ((lessThan 4 3 = true ∧ lessThan 3 4 = false) ∨
              (lessThan 4 3 = false ∧ lessThan 3 4 = true))) ∧
    greaterThan 4 3 = lessThan 3 4 :=
  lessThan_strict_total_order 4 3 7

/-! ## Bitwise reasoning on blades of either sign -/

theorem int_testBit_ext (x y : Int) (h : ∀ i, x.testBit i = y.testBit i) : x = y := by
  have hfalse : ∀ n m : Nat, (∀ i, Int.testBit (Int.ofNat n) i = Int.testBit (Int.negSucc m) i) →
      False := by
    intro n m hh
    have h1 : n.testBit (n + m) = false :=
      Nat.testBit_lt_two_pow (lt_of_lt_of_le (Nat.lt_two_pow n)
        (Nat.pow_le_pow_right (by norm_num) (by omega)))
    have h2 : m.testBit (n + m) = false :=
      Nat.testBit_lt_two_pow (lt_of_lt_of_le (Nat.lt_two_pow m)
        (Nat.pow_le_pow_right (by norm_num) (by omega)))
    have := hh (n + m)
    simp only [Int.testBit, h1, h2] at this
    exact absurd this (by decide)
  cases x with
  | ofNat n =>
    cases y with
    | ofNat k =>
      have : n = k := Nat.eq_of_testBit_eq (fun i => h i)
      rw [this]
    | negSucc k => exact (hfalse n k h).elim
  | negSucc n =>
    cases y with
    | ofNat k => exact (hfalse k n (fun i => (h i).symm)).elim
    | negSucc k =>
      have : n = k := by
        apply Nat.eq_of_testBit_eq
        intro i
        have := h i
        simp only [Int.testBit] at this
        cases hn : n.testBit i <;> cases hk : k.testBit i <;> simp [hn, hk] at this ⊢
      rw [this]

theorem testBit_sign_ext (x : Int) (hx : isType x) (i : Nat) (hi : 15 ≤ i) :
    x.testBit i = x.testBit 15 := by
  obtain ⟨h0, h1⟩ := hx
  have hlt : ∀ n : Nat, n < 2 ^ 15 → ∀ j, 15 ≤ j → n.testBit j = false := by
    intro n hn j hj
    exact Nat.testBit_lt_two_pow (lt_of_lt_of_le hn (Nat.pow_le_pow_right (by norm_num) hj))
  cases x with
  | ofNat n =>
    have hn : n < 2 ^ 15 := by
      have : (n : Int) ≤ 32767 := h1
      omega
    show n.testBit i = n.testBit 15
    rw [hlt n hn i hi, hlt n hn 15 (le_refl _)]
  | negSucc n =>
    have hn : n < 2 ^ 15 := by
      have : -32768 ≤ -((n : Int) + 1) := by
        rw [← Int.negSucc_eq]; exact h0
      omega
    show (!n.testBit i) = (!n.testBit 15)
    rw [hlt n hn i hi, hlt n hn 15 (le_refl _)]

theorem land_eq_self_iff (a m : Int) (ha : isType a) (hm : isType m) :
    Int.land a m = m ↔ ∀ i, i ≤ 15 → m.testBit i = true → a.testBit i = true := by
  constructor
  · intro h i _ hmi
    have := congrArg (fun z => Int.testBit z i) h
    simp only [Int.testBit_land, hmi, Bool.and_true] at this
    exact this
  · intro h
    apply int_testBit_ext
    intro i
    rw [Int.testBit_land]
    by_cases hi : i ≤ 15
    · cases hmi : m.testBit i
      · simp
      · simp [h i hi hmi]
    · rw [testBit_sign_ext a ha i (by omega), testBit_sign_ext m hm i (by omega)]
      cases hmi : m.testBit 15
      · simp
      · simp [h 15 (le_refl _) hmi]

theorem int_testBit_zero (i : Nat) : Int.testBit 0 i = false := by
  show Nat.testBit 0 i = false
  simp

theorem land_eq_zero_iff (a m : Int) (ha : isType a) (hm : isType m) :
    Int.land a m = 0 ↔ ∀ i, i ≤ 15 → m.testBit i = true → a.testBit i = false := by
  constructor
  · intro h i _ hmi
    have := congrArg (fun z => Int.testBit z i) h
    simp only [Int.testBit_land, hmi, Bool.and_true, int_testBit_zero] at this
    exact this
  · intro h
    apply int_testBit_ext
    intro i
    rw [Int.testBit_land, int_testBit_zero]
    by_cases hi : i ≤ 15
    · cases hmi : m.testBit i
      · simp
      · simp [h i hi hmi]
    · rw [testBit_sign_ext a ha i (by omega), testBit_sign_ext m hm i (by omega)]
      cases hmi : m.testBit 15
      · simp
      · simp [h 15 (le_refl _) hmi]

theorem null_vector_bits (dim : Nat) (h2 : 2 ≤ dim) (h16 : dim ≤ 16) :
    isType (origin dim) ∧ isType (infinity dim) ∧ isType (eplane dim) ∧
    (∀ i, i < 16 → (origin dim).testBit i = decide (i = dim - 2)) ∧
    (∀ i, i < 16 → (infinity dim).testBit i = decide (i = dim - 1)) ∧
    (∀ i, i < 16 → (eplane dim).testBit i = decide (i = dim - 1 ∨ i = dim - 2)) := by
  interval_cases dim <;> decide

theorem land_zero_left (b : Int) : Int.land 0 b = 0 := by
  obtain ⟨x, hx, hle⟩ := land_natCast 0 b
  have : x = 0 := by omega
  rw [this] at hx
  exact hx

theorem pss_bits (dim : Nat) (h16 : dim ≤ 16) :
    ∀ i, i < 16 → (pss dim).testBit i = decide (i < dim) := by
  interval_cases dim <;> decide

theorem lor_origin_infinity (dim : Nat) (h2 : 2 ≤ dim) (h16 : dim ≤ 16) :
    Int.lor (origin dim) (infinity dim) = eplane dim := by
  obtain ⟨hO, hI, hE, bO, bI, bE⟩ := null_vector_bits dim h2 h16
  apply int_testBit_ext
  intro i
  rw [Int.testBit_lor]
  by_cases hi : i < 16
  · rw [bO i hi, bI i hi, bE i hi]
    by_cases h1 : i = dim - 1 <;> by_cases h3 : i = dim - 2 <;> simp [h1, h3]
  · rw [testBit_sign_ext _ hO i (by omega), testBit_sign_ext _ hI i (by omega),
      testBit_sign_ext _ hE i (by omega), bO 15 (by norm_num), bI 15 (by norm_num),
      bE 15 (by norm_num)]
    by_cases h1 : 15 = dim - 1 <;> by_cases h3 : 15 = dim - 2 <;> simp [h1, h3]

theorem contains_origin_iff (dim : Nat) (a : Int) (h2 : 2 ≤ dim) (h16 : dim ≤ 16)
    (ha : isType a) :
    Int.land a (origin dim) = origin dim ↔ a.testBit (dim - 2) = true := by
  obtain ⟨hO, _, _, bO, _, _⟩ := null_vector_bits dim h2 h16
  rw [land_eq_self_iff a _ ha hO]
  constructor
  · intro h
    exact h (dim - 2) (by omega) (by rw [bO _ (by omega)]; simp)
  · intro h i hi hb
    rw [bO i (by omega)] at hb
    have : i = dim - 2 := by simpa using hb
    rw [this]; exact h

theorem contains_infinity_iff (dim : Nat) (a : Int) (h2 : 2 ≤ dim) (h16 : dim ≤ 16)
    (ha : isType a) :
    Int.land a (infinity dim) = infinity dim ↔ a.testBit (dim - 1) = true := by
  obtain ⟨_, hI, _, _, bI, _⟩ := null_vector_bits dim h2 h16
  rw [land_eq_self_iff a _ ha hI]
  constructor
  · intro h
    exact h (dim - 1) (by omega) (by rw [bI _ (by omega)]; simp)
  · intro h i hi hb
    rw [bI i (by omega)] at hb
    have : i = dim - 1 := by simpa using hb
    rw [this]; exact h

theorem checkMink_bits (dim : Nat) (a : Int) (h2 : 2 ≤ dim) (h16 : dim ≤ 16) (ha : isType a) :
    checkMink a dim = true ↔ a.testBit (dim - 2) = a.testBit (dim - 1) := by
  obtain ⟨_, _, hE, _, _, bE⟩ := null_vector_bits dim h2 h16
  unfold checkMink
  rw [Bool.or_eq_true, decide_eq_true_eq, decide_eq_true_eq, land_eq_zero_iff a _ ha hE,
    land_eq_self_iff a _ ha hE]
  have e1 : (eplane dim).testBit (dim - 1) = true := by rw [bE _ (by omega)]; simp
  have e2 : (eplane dim).testBit (dim - 2) = true := by rw [bE _ (by omega)]; simp
  constructor
  · rintro (h | h)
    · rw [h _ (by omega) e1, h _ (by omega) e2]
    · rw [h _ (by omega) e1, h _ (by omega) e2]
  · intro h
    cases hb : a.testBit (dim - 1)
    · left
      intro i hi hbit
      rw [bE i (by omega)] at hbit
      have : i = dim - 1 ∨ i = dim - 2 := by simpa using hbit
      rcases this with rfl | rfl
      · exact hb
      · rw [h]; exact hb
    · right
      intro i hi hbit
      rw [bE i (by omega)] at hbit
      have : i = dim - 1 ∨ i = dim - 2 := by simpa using hbit
      rcases this with rfl | rfl
      · exact hb
      · rw [h]; exact hb

/-- C11 (as amended): for every dimension `2 ≤ dim ≤ 16` and every blade `a`,
`origin dim` and `infinity dim` are the bits `dim - 2` and `dim - 1`, the top
two bits of `pss dim`, their union is `eplane dim`, and `checkMink a dim` is
true iff `a` contains both or neither of them; it is false exactly when `a`
contains one of them without the other. -/
theorem checkMink_both_or_neither (dim : Nat) (a : Int) (h2 : 2 ≤ dim) (h16 : dim ≤ 16)
    (ha : isType a) :
    (∀ i, i < 16 → (origin dim).testBit i = decide (i = dim - 2)) ∧
    (∀ i, i < 16 → (infinity dim).testBit i = decide (i = dim - 1)) ∧
    (∀ i, i < 16 → (pss dim).testBit i = decide (i < dim)) ∧
    Int.lor (origin dim) (infinity dim) = eplane dim ∧
    (checkMink a dim = true ↔
      ((Int.land a (origin dim) = origin dim ∧ Int.land a (infinity dim) = infinity dim) ∨
       (Int.land a (origin dim) = 0 ∧ Int.land a (infinity dim) = 0))) ∧
    (checkMink a dim = false ↔
      ((Int.land a (origin dim) = origin dim ∧ Int.land a (infinity dim) = 0) ∨
       (Int.land a (origin dim) = 0 ∧ Int.land a (infinity dim) = infinity dim))) := by
  obtain ⟨hO, hI, _, bO, bI, _⟩ := null_vector_bits dim h2 h16
  have cO := contains_origin_iff dim a h2 h16 ha
  have cI := contains_infinity_iff dim a h2 h16 ha
  have zO : Int.land a (origin dim) = 0 ↔ a.testBit (dim - 2) = false := by
    rw [land_eq_zero_iff a _ ha hO]
    constructor
    · intro h
      exact h (dim - 2) (by omega) (by rw [bO _ (by omega)]; simp)
    · intro h i hi hb
      rw [bO i (by omega)] at hb
      have : i = dim - 2 := by simpa using hb
      rw [this]; exact h
  have zI : Int.land a (infinity dim) = 0 ↔ a.testBit (dim - 1) = false := by
    rw [land_eq_zero_iff a _ ha hI]
    constructor
    · intro h
      exact h (dim - 1) (by omega) (by rw [bI _ (by omega)]; simp)
    · intro h i hi hb
      rw [bI i (by omega)] at hb
      have : i = dim - 1 := by simpa using hb
      rw [this]; exact h
  have hc := checkMink_bits dim a h2 h16 ha
  refine ⟨bO, bI, pss_bits dim h16, lor_origin_infinity dim h2 h16, ?_, ?_⟩
  · rw [hc, cO, cI, zO, zI]
    cases a.testBit (dim - 2) <;> cases a.testBit (dim - 1) <;> simp
  · rw [← Bool.not_eq_true, hc, cO, cI, zO, zI]
    cases a.testBit (dim - 2) <;> cases a.testBit (dim - 1) <;> simp

theorem checkMink_both_or_neither_witness :
    2 ≤ 5 ∧ 5 ≤ 16 ∧ isType 8 ∧
    ((∀ i, i < 16 → (origin 5).testBit i = decide (i = 5 - 2)) ∧
    (∀ i, i < 16 → (infinity 5).testBit i = decide (i = 5 - 1)) ∧
    (∀ i, i < 16 → (pss 5).testBit i = decide (i < 5)) ∧
    Int.lor (origin 5) (infinity 5) = eplane 5 ∧
    (checkMink 8 5 = true ↔
      ((Int.land 8 (origin 5) = origin 5 ∧ Int.land 8 (infinity 5) = infinity 5) ∨
       (Int.land 8 (origin 5) = 0 ∧ Int.land 8 (infinity 5) = 0))) ∧
    (checkMink 8 5 = false ↔
      ((Int.land 8 (origin 5) = origin 5 ∧ Int.land 8 (infinity 5) = 0) ∨
       (Int.land 8 (origin 5) = 0 ∧ Int.land 8 (infinity 5) = infinity 5)))) :=
  ⟨by decide, by decide, by decide,
    checkMink_both_or_neither 5 8 (by decide) (by decide) (by decide)⟩

/-- C11 (counterexample): at dimension 17 the shifted bit of `infinity` no
longer fits the 16-bit blade: `infinity 17 = 0`, `origin 17 = -32768`, and
`checkMink a 17` is true for the scalar blade `0` (which has the zero blade
`infinity 17` inside it but not `origin 17`) and for `-32768` (which meets
`origin 17` but not `infinity 17`). -/
theorem checkMink_seventeen :
    origin 17 = -32768 ∧ infinity 17 = 0 ∧
    checkMink 0 17 = true ∧
    Int.land 0 (infinity 17) = infinity 17 ∧ Int.land 0 (origin 17) ≠ origin 17 ∧
    checkMink (-32768) 17 = true ∧
    Int.land (-32768) (origin 17) ≠ 0 ∧ Int.land (-32768) (infinity 17) = 0 := by
  have hO : origin 17 = -32768 := by decide
  have hI : infinity 17 = 0 := by decide
  have hE : eplane 17 = -32768 := by decide
  have hz : Int.land 0 (-32768) = 0 := land_zero_left _
  refine ⟨hO, hI, ?_, ?_, ?_, ?_, ?_, ?_⟩
  · unfold checkMink
    rw [hE, hz]
    decide
  · rw [hI]; decide
  · rw [hO, hz]; decide
  · unfold checkMink
    rw [hE]
    decide
  · rw [hO]; decide
  · rw [hI]; exact hz

/-- The first 15 basis vectors: `makeBlade i` has exactly bit `i - 1` set, grade 1
and dimension `i`. -/
theorem makeBlade_grade_dimOf_of_le (i : Nat) (h1 : 1 ≤ i) (h15 : i ≤ 15) :
    (∀ k, k < 16 → (makeBlade i).testBit k = decide (k = i - 1)) ∧
    grade (makeBlade i) = 1 ∧ dimOf (makeBlade i) = i := by
  rw [makeBlade_eq i h1 h15]
  have hlt : 2 ^ (i - 1) < 2 ^ 15 := Nat.pow_lt_pow_right (by norm_num) (by omega)
  refine ⟨?_, ?_, ?_⟩
  · intro k _
    rw [testBit_natCast, Nat.testBit_two_pow]
    by_cases h : i - 1 = k
    · simp [h]
    · have h' : ¬ k = i - 1 := fun e => h e.symm
      simp [h, h']
  · rw [grade_natCast16 _ (by omega), popc_two_pow]
    simp; omega
  · obtain ⟨k, _, hdim, _, hnz⟩ := dimOf_natCast 15 (2 ^ (i - 1)) 0 hlt (le_refl _) (by norm_num)
    have hne : 2 ^ (i - 1) ≠ 0 := by positivity
    obtain ⟨hlo, hhi⟩ := hnz hne
    rw [hdim, zero_add]
    have hk1 : i - 1 < k := (Nat.pow_lt_pow_iff_right (by norm_num)).mp hhi
    have hk2 : k - 1 ≤ i - 1 := (Nat.pow_le_pow_iff_right (by norm_num)).mp hlo
    have : k = i := by omega
    rw [this]

/-- C19: the blade type is documented as holding 16 dimensions, so the 16th
basis vector should be a blade of grade 1 and dimension 16.  `makeBlade 16`
is the `short` value `-32768`, which has exactly bit 15 set, but the source
computes grade 0 and dimension 0 for it. -/
theorem sixteenth_basis_vector :
    makeBlade 16 = -32768 ∧
    (∀ k, k < 16 → (makeBlade 16).testBit k = decide (k = 15)) ∧
    grade (makeBlade 16) = 0 ∧ dimOf (makeBlade 16) = 0 := by
  have h : makeBlade 16 = -32768 := by decide
  refine ⟨h, ?_, ?_, ?_⟩
  · rw [h]; decide
  · rw [h, grade, if_neg (by decide)]
  · rw [h, dimOf, if_neg (by decide)]

theorem reverse_scalar : reverse 0 = false := by
  unfold reverse
  rw [grade_of_nonpos 0 (le_refl _)]
  simp only [decide_eq_false_iff_not, cpow_neg_one_iff]
  decide

theorem reverse_e12 : reverse 3 = true := by
  have hp : popc 16 ((3 : Nat) : Int) = 2 := by decide
  have hg : grade 3 = 2 := by
    have h := grade_natCast16 3 (by norm_num)
    rw [hp] at h
    exact_mod_cast h
  unfold reverse
  rw [hg]
  simp only [decide_eq_true_eq, cpow_neg_one_iff]
  decide

/-! ## Parity of the crossing count -/

theorem cr_succ (w : Nat) (a b : Int) :
    cr (w + 1) a b = cr w a b + (if a.testBit w = true then popc w b else 0) := by
  unfold cr
  rw [Finset.sum_range_succ]

theorem cr_self (w : Nat) (a : Int) : 2 * cr w a a + popc w a = popc w a * popc w a := by
  induction w with
  | zero => simp [cr, popc]
  | succ w ih =>
    rw [cr_succ, popc_succ]
    by_cases h : a.testBit w = true
    · simp only [h, if_true]
      nlinarith [ih]
    · simp only [h, if_false]
      simpa using ih

theorem cr_swap (w : Nat) (a b : Int) :
    cr w a b + cr w b a + popc w (Int.land a b) = popc w a * popc w b := by
  induction w with
  | zero => simp [cr, popc]
  | succ w ih =>
    rw [cr_succ, cr_succ, popc_succ, popc_succ, popc_succ, Int.testBit_land]
    by_cases ha : a.testBit w = true <;> by_cases hb : b.testBit w = true <;>
      simp [ha, hb] <;> nlinarith [ih]

theorem popc_xor_mod_two (w : Nat) (b c : Int) :
    popc w (Int.xor b c) % 2 = (popc w b + popc w c) % 2 := by
  have h := popc_xor_land w b c
  omega

theorem cr_xor_right (w : Nat) (a b c : Int) :
    cr w a (Int.xor b c) % 2 = (cr w a b + cr w a c) % 2 := by
  induction w with
  | zero => simp [cr]
  | succ w ih =>
    rw [cr_succ, cr_succ, cr_succ]
    have hp := popc_xor_mod_two w b c
    by_cases ha : a.testBit w = true
    · simp only [ha, if_true]
      omega
    · simp [ha]
      omega

theorem cr_xor_left (w : Nat) (a b c : Int) :
    cr w (Int.xor a b) c % 2 = (cr w a c + cr w b c) % 2 := by
  induction w with
  | zero => simp [cr]
  | succ w ih =>
    rw [cr_succ, cr_succ, cr_succ, Int.testBit_lxor]
    by_cases ha : a.testBit w = true <;> by_cases hb : b.testBit w = true <;>
      simp [ha, hb] <;> omega

theorem signFlip_parity (a b : Int) (h0 : 0 ≤ a) (h1 : a ≤ 32767) :
    signFlip a b = decide (cr 16 a b % 2 = 1) := by
  rw [signFlip_eq_crossings_of_nonneg a b h0 h1, crossings_eq_cr]

theorem xor_natCast_range (a b : Int) (ha0 : 0 ≤ a) (ha1 : a ≤ 32767) (hb0 : 0 ≤ b)
    (hb1 : b ≤ 32767) : 0 ≤ Int.xor a b ∧ Int.xor a b ≤ 32767 := by
  obtain ⟨m, rfl, hm⟩ := exists_natCast_of_nonneg a ha0 ha1
  obtain ⟨k, rfl, hk⟩ := exists_natCast_of_nonneg b hb0 hb1
  have hx : Int.xor (m : Int) (k : Int) = ((m ^^^ k : Nat) : Int) := rfl
  have hlt : m ^^^ k < 2 ^ 15 := Nat.xor_lt_two_pow hm hk
  rw [hx]
  omega

/-- With the sign bit clear in `a` and `b` the sign of the blade product is
associative, for every `c`. -/
theorem signFlip_cocycle_of_nonneg (a b c : Int) (ha0 : 0 ≤ a) (ha1 : a ≤ 32767)
    (hb0 : 0 ≤ b) (hb1 : b ≤ 32767) :
    xor (signFlip a b) (signFlip (product a b) c)
      = xor (signFlip b c) (signFlip a (product b c)) := by
  obtain ⟨hx0, hx1⟩ := xor_natCast_range a b ha0 ha1 hb0 hb1
  unfold product
  rw [signFlip_parity a b ha0 ha1, signFlip_parity _ c hx0 hx1, signFlip_parity b c hb0 hb1,
    signFlip_parity a _ ha0 ha1]
  have h1 := cr_xor_left 16 a b c
  have h2 := cr_xor_right 16 a b c
  generalize cr 16 a b = x1 at *
  generalize cr 16 (Int.xor a b) c = x2 at *
  generalize cr 16 b c = x3 at *
  generalize cr 16 a (Int.xor b c) = x4 at *
  generalize cr 16 a c = y at *
  rcases Nat.mod_two_eq_zero_or_one x1 with e1 | e1 <;>
  rcases Nat.mod_two_eq_zero_or_one x3 with e3 | e3 <;>
  rcases Nat.mod_two_eq_zero_or_one y with ey | ey <;>
  · have e2 : x2 % 2 = (y + x3) % 2 := h1
    have e4 : x4 % 2 = (x1 + y) % 2 := h2
    rcases Nat.mod_two_eq_zero_or_one x2 with f2 | f2 <;>
    rcases Nat.mod_two_eq_zero_or_one x4 with f4 | f4 <;>
    first
      | (exfalso; omega)
      | simp [e1, e3, f2, f4]

/-! ## Further properties of the blade encoding -/

theorem grade_nonneg_eq_popc (a : Int) (h0 : 0 ≤ a) (h1 : a ≤ 32767) :
    grade a = (popc 16 a : Int) := by
  obtain ⟨n, rfl, hn⟩ := exists_natCast_of_nonneg a h0 h1
  exact grade_natCast16 n (by omega)

/-- C21: the sign of the blade product is meant to be associative.  For
`a = 2` (`e2`), `b = -32768` (`e16`) and `c = 1` (`e1`) the two sides differ:
`signFlip a b` and `signFlip (a xor b) c` are both `false`, while
`signFlip b c` is `false` and `signFlip a (b xor c)` is `true`. -/
theorem signFlip_cocycle_sixteenth :
    isType 2 ∧ isType (-32768) ∧ isType 1 ∧
    xor (signFlip 2 (-32768)) (signFlip (product 2 (-32768)) 1) = false ∧
    xor (signFlip (-32768) 1) (signFlip 2 (product (-32768) 1)) = true := by
  have hp1 : product 2 (-32768) = -32766 := by decide
  have hp2 : product (-32768) 1 = -32767 := by decide
  have h1 : signFlip 2 (-32768) = false := by
    rw [signFlip_parity 2 _ (by decide) (by decide)]; decide
  have h2 : signFlip (-32766) 1 = false := signFlip_of_neg _ _ (by decide)
  have h3 : signFlip (-32768) 1 = false := signFlip_of_neg _ _ (by decide)
  have h4 : signFlip 2 (-32767) = true := by
    rw [signFlip_parity 2 _ (by decide) (by decide)]; decide
  refine ⟨by decide, by decide, by decide, ?_, ?_⟩
  · rw [hp1, h1, h2]; rfl
  · rw [hp2, h3, h4]; rfl

/-- C22: the sign of a blade multiplied by itself is its reversion sign: for
every blade `a`, `signFlip a a = reverse a`. -/
theorem signFlip_self_eq_reverse (a : Int) (h : isType a) : signFlip a a = reverse a := by
  obtain ⟨hlo, hhi⟩ := h
  by_cases hneg : a < 0
  · rw [signFlip_of_neg a a hneg]
    unfold reverse
    rw [grade_of_nonpos a (by omega)]
    simp only [cpow_neg_one_iff]
    decide
  · have h0 : 0 ≤ a := by omega
    rw [signFlip_parity a a h0 hhi]
    unfold reverse
    rw [grade_nonneg_eq_popc a h0 hhi]
    have hc := cr_self 16 a
    have hle := popc_le 16 a
    simp only [cpow_neg_one_iff]
    generalize popc 16 a = g at hc hle
    generalize cr 16 a a = x at hc
    have hx : x = (g * g - g) / 2 := by omega
    subst hx
    interval_cases g <;> decide

theorem signFlip_self_eq_reverse_witness :
    isType 7 ∧ signFlip 7 7 = reverse 7 :=
  ⟨by decide, signFlip_self_eq_reverse 7 (by decide)⟩

/-- With the sign bit clear in two blades that share no basis vector, swapping
the factors flips the sign exactly when the product of the grades is odd. -/
theorem signFlip_swap_of_nonneg (a b : Int) (ha0 : 0 ≤ a) (ha1 : a ≤ 32767)
    (hb0 : 0 ≤ b) (hb1 : b ≤ 32767) (ho : outer a b = true) :
    signFlip a b ≠ signFlip b a ↔ (grade a * grade b) % 2 = 1 := by
  rw [outer_iff] at ho
  rw [signFlip_parity a b ha0 ha1, signFlip_parity b a hb0 hb1,
    grade_nonneg_eq_popc a ha0 ha1, grade_nonneg_eq_popc b hb0 hb1]
  have hs := cr_swap 16 a b
  rw [ho, popc_zero, add_zero] at hs
  have hm : ((popc 16 a : Int) * (popc 16 b : Int)) % 2 = ((cr 16 a b + cr 16 b a : Nat) : Int) % 2 := by
    rw [hs]; push_cast; rfl
  rw [hm]
  generalize cr 16 a b = x
  generalize cr 16 b a = y
  rcases Nat.mod_two_eq_zero_or_one x with ex | ex <;>
  rcases Nat.mod_two_eq_zero_or_one y with ey | ey <;>
    simp [ex, ey] <;> omega

/-- C23: for disjoint blades the sign is meant to change under a swap of the
factors exactly when the product of the grades is odd.  For `a = -32767`
(`e1 e16`) and `b = 2` (`e2`), which share no basis vector, the source gives
different signs for the two orders although it computes
`grade a * grade b = 0`. -/
theorem signFlip_swap_sixteenth :
    isType (-32767) ∧ isType 2 ∧ outer (-32767) 2 = true ∧
    signFlip (-32767) 2 = false ∧ signFlip 2 (-32767) = true ∧
    grade (-32767) * grade 2 = 0 := by
  have hl : Int.land 2 (-32767) = 0 := by
    rw [land_eq_zero_iff 2 (-32767) (by decide) (by decide)]
    decide
  have hl' : Int.land (-32767) 2 = 0 := hl
  refine ⟨by decide, by decide, ?_, signFlip_of_neg _ _ (by decide), ?_, ?_⟩
  · rw [outer_iff]; exact hl'
  · rw [signFlip_parity 2 _ (by decide) (by decide)]; decide
  · rw [grade_of_nonpos (-32767) (by decide)]; simp

/-- C24: Clifford conjugation is reversion composed with grade involution:
for every blade `a`, `conjugate a = (reverse a != involute a)`. -/
theorem conjugate_eq_reverse_xor_involute (a : Int) (h : isType a) :
    conjugate a = (reverse a != involute a) := by
  obtain ⟨h0, h15⟩ := grade_range a h
  unfold reverse involute conjugate
  simp only [cpow_neg_one_iff]
  generalize grade a = g at h0 h15
  interval_cases g <;> decide

theorem conjugate_eq_reverse_xor_involute_witness :
    isType 7 ∧ conjugate 7 = (reverse 7 != involute 7) :=
  ⟨by decide, conjugate_eq_reverse_xor_involute 7 (by decide)⟩

theorem land_xor_distrib (a b m : Int) :
    Int.land (Int.xor a b) m = Int.xor (Int.land a m) (Int.land b m) := by
  apply int_testBit_ext
  intro i
  rw [Int.testBit_land, Int.testBit_lxor, Int.testBit_lxor, Int.testBit_land, Int.testBit_land]
  cases a.testBit i <;> cases b.testBit i <;> cases m.testBit i <;> rfl

theorem xor_zero_left (m : Int) : Int.xor 0 m = m := by
  apply int_testBit_ext
  intro i
  rw [Int.testBit_lxor, int_testBit_zero]
  cases m.testBit i <;> rfl

theorem xor_zero_right (m : Int) : Int.xor m 0 = m := by
  apply int_testBit_ext
  intro i
  rw [Int.testBit_lxor, int_testBit_zero]
  cases m.testBit i <;> rfl

/-- C25: the Minkowski-split validity is preserved by the blade product: for
every dimension `dim` and all blades `a`, `b`, if `checkMink a dim` and
`checkMink b dim` are true then `checkMink (product a b) dim` is true. -/
theorem checkMink_product (dim : Nat) (a b : Int)
    (ha : checkMink a dim = true) (hb : checkMink b dim = true) :
    checkMink (product a b) dim = true := by
  unfold checkMink at ha hb ⊢
  unfold product
  rw [Bool.or_eq_true, decide_eq_true_eq, decide_eq_true_eq] at ha hb ⊢
  rw [land_xor_distrib]
  rcases ha with ha | ha <;> rcases hb with hb | hb <;> rw [ha, hb]
  · left; exact xor_zero_left 0
  · right; exact xor_zero_left _
  · right; exact xor_zero_right _
  · left; exact xor_self_eq_zero _

theorem checkMink_product_witness :
    2 ≤ 5 ∧ checkMink 24 5 = true ∧ checkMink 3 5 = true ∧
      checkMink (product 24 3) 5 = true :=
  ⟨by decide, by decide, by decide, checkMink_product 5 24 3 (by decide) (by decide)⟩

theorem int_testBit_neg_one (i : Nat) : Int.testBit (-1) i = true := by
  show (!Nat.testBit 0 i) = true
  simp

theorem pss_of_ge (d : Nat) (h : 16 ≤ d) : pss d = -1 := by
  induction d with
  | zero => omega
  | succ d ih =>
    by_cases h15 : d = 15
    · subst h15; decide
    · have hd : pss d = -1 := ih (by omega)
      show toType (Int.lor ((1 : Int) <<< (d : Int)) (pss d)) = -1
      rw [hd]
      have : Int.lor ((1 : Int) <<< (d : Int)) (-1) = -1 := by
        apply int_testBit_ext
        intro i
        rw [Int.testBit_lor, int_testBit_neg_one]
        simp
      rw [this]
      decide

theorem pss_le (d : Nat) : pss d ≤ 32767 := by
  by_cases h : d ≤ 15
  · have e : pss d = 2 ^ d - 1 := pss_eq d h
    have : (2 : Int) ^ d ≤ 2 ^ 15 := pow_le_pow_right₀ (by norm_num) h
    rw [e]; omega
  · rw [pss_of_ge d (by omega)]; decide

theorem popc_full (w n : Nat) (hn : n < 2 ^ w) (h : popc w (n : Int) = w) : n = 2 ^ w - 1 := by
  unfold popc at h
  have hle : ∀ i ∈ Finset.range w,
      (if Int.testBit (n : Int) i = true then 1 else 0) ≤ (1 : Nat) := by
    intro i _
    split <;> simp
  have hsum : (∑ i in Finset.range w, if Int.testBit (n : Int) i = true then 1 else 0)
      = ∑ _i in Finset.range w, (1 : Nat) := by
    rw [h]; simp
  have hpt := (Finset.sum_eq_sum_iff_of_le hle).mp hsum
  apply Nat.eq_of_testBit_eq
  intro i
  rw [Nat.testBit_two_pow_sub_one]
  by_cases hi : i < w
  · have := hpt i (Finset.mem_range.mpr hi)
    rw [testBit_natCast] at this
    have hb : n.testBit i = true := by
      by_contra hc
      simp [hc] at this
    rw [hb]; simp [hi]
  · have hb : n.testBit i = false :=
      Nat.testBit_lt_two_pow (lt_of_lt_of_le hn (Nat.pow_le_pow_right (by norm_num) (by omega)))
    rw [hb]; simp [hi]

theorem grade_pos_of_pos (a : Int) (h0 : 0 < a) (h1 : a ≤ 32767) : 0 < grade a := by
  obtain ⟨n, rfl, hn⟩ := exists_natCast_of_nonneg a (le_of_lt h0) h1
  rw [grade_natCast16 n (by omega)]
  have hne : n ≠ 0 := by omega
  have := (popc_natCast_eq_zero 16 n (by omega)).not.mpr hne
  omega

theorem lessThan_scalar_of_pos (a : Int) (h0 : 0 < a) (h1 : a ≤ 32767) :
    lessThan 0 a = true ∧ lessThan a 0 = false := by
  have hg := grade_pos_of_pos a h0 h1
  have hz : grade 0 = 0 := grade_of_nonpos 0 (le_refl _)
  unfold lessThan
  rw [hz]
  constructor
  · rw [if_neg (by omega)]
    simpa using hg
  · rw [if_neg (by omega)]
    simp; omega

/-- C26: the scalar blade is the least and the pseudoscalar the greatest
element of the blade ordering: for every dimension `d` and every blade `a`
with `0 ≤ a ≤ pss d`, `a ≠ 0` implies `lessThan 0 a` and `a ≠ pss d` implies
`lessThan a (pss d)`; hence in every basis of such blades that is sorted by
`lessThan` and contains the scalar blade 0, the scalar is slot 0. -/
theorem scalar_least_pss_greatest (d : Nat) :
    (∀ a : Int, 0 ≤ a → a ≤ pss d →
      (a ≠ 0 → lessThan 0 a = true) ∧ (a ≠ pss d → lessThan a (pss d) = true)) ∧
    (∀ basis : List Int, (∀ x ∈ basis, 0 ≤ x ∧ x ≤ pss d) →
      basis.Pairwise (fun x y => lessThan x y = true) → 0 ∈ basis →
      basis.head? = some 0 ∧ basis[0]? = some 0) := by
  constructor
  · intro a h0 h1
    have h32 : a ≤ 32767 := le_trans h1 (pss_le d)
    constructor
    · intro hne
      exact (lessThan_scalar_of_pos a (by omega) h32).1
    · intro hne
      have hd : d ≤ 15 := by
        by_contra hc
        rw [pss_of_ge d (by omega)] at h1
        omega
      have hp : pss d = ((2 ^ d - 1 : Nat) : Int) := by
        rw [pss_eq d hd]
        have : 0 < 2 ^ d := by positivity
        push_cast [Nat.cast_sub (Nat.one_le_two_pow)]
        rfl
      obtain ⟨n, rfl, hn⟩ := exists_natCast_of_nonneg a h0 h32
      rw [hp] at h1 hne ⊢
      have h2d : 0 < 2 ^ d := by positivity
      have hnlt : n < 2 ^ d := by omega
      have hfull : 2 ^ d - 1 < 2 ^ d := by omega
      have ga := grade_natCast d n 0 hnlt (le_refl _) (by omega)
      have gp := grade_natCast d (2 ^ d - 1) 0 hfull (le_refl _) (by omega)
      have hpd : popc d ((2 ^ d - 1 : Nat) : Int) = d := by
        clear ga gp h1 hne hp
        interval_cases d <;> decide
      have hlt : popc d (n : Int) < d := by
        have hle := popc_le d (n : Int)
        rcases Nat.lt_or_ge (popc d (n : Int)) d with h | h
        · exact h
        · exfalso
          have := popc_full d n hnlt (by omega)
          exact hne (by rw [this])
      unfold lessThan
      rw [ga, gp, hpd, zero_add, zero_add, if_neg (by omega)]
      simpa using hlt
  · intro basis hrange hsorted hmem
    have hhead : basis.head? = some 0 := by
      cases basis with
      | nil => simp at hmem
      | cons x rest =>
        by_cases hx : x = 0
        · simp [hx]
        · exfalso
          have hin : (0 : Int) ∈ rest := by
            rcases List.mem_cons.mp hmem with h | h
            · exact absurd h.symm hx
            · exact h
          have hrel : lessThan x 0 = true := (List.pairwise_cons.mp hsorted).1 0 hin
          obtain ⟨hx0, hx1⟩ := hrange x (List.mem_cons_self _ _)
          have := (lessThan_scalar_of_pos x (by omega) (le_trans hx1 (pss_le d))).2
          rw [this] at hrel
          exact absurd hrel (by decide)
    refine ⟨hhead, ?_⟩
    cases basis with
    | nil => simp at hmem
    | cons x rest => simpa using hhead

theorem scalar_least_pss_greatest_witness :
    (0 ≤ (5 : Int) ∧ 5 ≤ pss 3 ∧ (5 : Int) ≠ 0 ∧ lessThan 0 5 = true ∧
      5 ≠ pss 3 ∧ lessThan 5 (pss 3) = true) ∧
    ((∀ x ∈ ([0, 5] : List Int), 0 ≤ x ∧ x ≤ pss 3) ∧
      ([0, 5] : List Int).Pairwise (fun x y => lessThan x y = true) ∧
      (0 : Int) ∈ ([0, 5] : List Int) ∧
      ([0, 5] : List Int).head? = some 0 ∧ ([0, 5] : List Int)[0]? = some 0) :=
  have hs : ([0, 5] : List Int).Pairwise (fun x y => lessThan x y = true) :=
    List.pairwise_pair.mpr (lessThan_scalar_of_pos 5 (by decide) (by decide)).1
  ⟨⟨by decide, by decide, by decide,
    ((scalar_least_pss_greatest 3).1 5 (by decide) (by decide)).1 (by decide),
    by decide,
    ((scalar_least_pss_greatest 3).1 5 (by decide) (by decide)).2 (by decide)⟩,
   ⟨by decide, hs, by decide,
    (scalar_least_pss_greatest 3).2 [0, 5] (by decide) hs (by decide)⟩⟩

/-! ## Blade names -/

theorem indexString_zero (w : Nat) (i : Int) : indexString w 0 i = "" := by
  unfold indexString
  have : (List.range w).filter (fun k => Int.testBit 0 k) = [] := by
    apply List.filter_eq_nil_iff.mpr
    intro k _
    rw [int_testBit_zero]
    simp
  rw [this]
  rfl

theorem indexString_succ (w n : Nat) (i : Int) :
    indexString (w + 1) (n : Int) i
      = (if n % 2 = 1 then toString i else "") ++ indexString w ((n / 2 : Nat) : Int) (i + 1) := by
  unfold indexString
  have hfun : ((fun k => Int.testBit (n : Int) k) ∘ Nat.succ)
      = (fun k => Int.testBit ((n / 2 : Nat) : Int) k) := by
    funext k
    simp only [Function.comp, testBit_natCast]
    exact Nat.testBit_succ n k
  have hmap : ((fun k : Nat => toString (i + (k : Int))) ∘ Nat.succ)
      = (fun k : Nat => toString (i + 1 + (k : Int))) := by
    funext k
    simp only [Function.comp]
    congr 1
    push_cast
    ring
  have hb : Int.testBit (n : Int) 0 = decide (n % 2 = 1) := by
    rw [testBit_natCast, Nat.testBit_zero]
  rw [List.range_succ_eq_map, List.filter_cons, List.filter_map, hfun, hb]
  rcases Nat.mod_two_eq_zero_or_one n with h | h
  · simp only [h, zero_ne_one, decide_False, Bool.false_eq_true, if_false, List.map_map, hmap]
    simp
  · simp only [h, decide_True, if_true, List.map_cons, List.map_map, hmap, List.foldr_cons,
      Nat.cast_zero, add_zero]

theorem estringLoop_natCast : ∀ (w fuel n : Nat) (i : Int) (s : String), n < 2 ^ w → w < fuel →
    estringLoop fuel (n : Int) i s = some (s ++ indexString w (n : Int) i) := by
  intro w
  induction w with
  | zero =>
    intro fuel n i s hn hf
    have : n = 0 := by simpa using hn
    subst this
    obtain ⟨f, rfl⟩ : ∃ f, fuel = f + 1 := ⟨fuel - 1, by omega⟩
    show (if ((0 : Nat) : Int) ≠ 0 then _ else some s) = _
    rw [if_neg (by simp)]
    simp [indexString]
  | succ w ih =>
    intro fuel n i s hn hf
    obtain ⟨f, rfl⟩ : ∃ f, fuel = f + 1 := ⟨fuel - 1, by omega⟩
    have hhalf : n / 2 < 2 ^ w := by
      rw [pow_succ] at hn; omega
    by_cases h0 : n = 0
    · subst h0
      show (if ((0 : Nat) : Int) ≠ 0 then _ else some s) = _
      rw [if_neg (by simp)]
      have := indexString_zero (w + 1) i
      simp only [Nat.cast_zero] at this ⊢
      rw [this]
      simp
    · have hne : (n : Int) ≠ 0 := by omega
      show (if (n : Int) ≠ 0 then
          estringLoop f ((n : Int) >>> (1 : Nat)) (i + 1)
            (if Int.land (n : Int) 1 ≠ 0 then s ++ toString i else s)
        else some s) = _
      rw [if_pos hne, shiftRight_one_natCast, land_one_natCast, ih f (n / 2) (i + 1) _ hhalf (by omega),
        indexString_succ]
      rcases Nat.mod_two_eq_zero_or_one n with h | h
      · simp [h]
      · simp [h, String.append_assoc]

theorem estring_natCast (fuel n : Nat) (hn : n < 2 ^ 15) (hf : 16 ≤ fuel) :
    estring fuel (n : Int)
      = some (if (n : Int) = 0 then "" else "e" ++ indexString 15 (n : Int) 1) := by
  unfold estring
  by_cases h0 : n = 0
  · subst h0; simp
  · have hne : (n : Int) ≠ 0 := by omega
    rw [if_neg hne, if_neg hne, estringLoop_natCast 15 fuel n 1 "e" hn (by omega)]

set_option maxRecDepth 1000000 in
theorem decode_estring_chunks : ∀ hi, hi < 32 → ∀ lo, lo < 64 →
    decode (estring 16 ((64 * hi + lo : Nat) : Int)) = some (64 * hi + lo) := by
  decide

theorem decode_estring (n : Nat) (hn : n < 2048) : decode (estring 16 (n : Int)) = some n := by
  have h := decode_estring_chunks (n / 64) (by omega) (n % 64) (Nat.mod_lt _ (by norm_num))
  have e : 64 * (n / 64) + n % 64 = n := Nat.div_add_mod n 64
  rw [e] at h
  exact h

theorem estringLoop_neg_one (fuel : Nat) (i : Int) (s : String) :
    estringLoop fuel (-1) i s = none := by
  induction fuel generalizing i s with
  | zero => rfl
  | succ f ih =>
    show (if (-1 : Int) ≠ 0 then
        estringLoop f ((-1 : Int) >>> (1 : Nat)) (i + 1)
          (if Int.land (-1) 1 ≠ 0 then s ++ toString i else s)
      else some s) = none
    rw [if_pos (by decide)]
    have : ((-1 : Int) >>> (1 : Nat)) = -1 := by decide
    rw [this]
    exact ih _ _

/-- On the blade `-1` (all 16 bits set) the loop of `estring` never ends:
`x >> 1` stays `-1`. -/
theorem estring_neg_one (fuel : Nat) : estring fuel (-1) = none := by
  unfold estring
  rw [if_neg (by decide)]
  exact estringLoop_neg_one fuel 1 "e"

/-- C27 (counterexample): the blades `3` (`e1 e2`) and `2048` (`e12`) are both
named `e12`. -/
theorem estring_collision :
    (0 ≤ (3 : Int) ∧ (3 : Int) ≤ 32767) ∧ (0 ≤ (2048 : Int) ∧ (2048 : Int) ≤ 32767) ∧
    estring 16 3 = some "e12" ∧ estring 16 2048 = some "e12" ∧ (3 : Int) ≠ 2048 := by
  decide

/-- C27 (as amended): on every blade in `0..32767` `estring` terminates (16
iterations suffice, more change nothing), `estring 0` is the empty string and
otherwise the name is `e` followed by the decimal 1-based indices of the set
bits in ascending order; for blades `x`, `y` in `0..2047` (basis vectors 1 to
11) equal names imply `x = y`. -/
theorem estring_unambiguous (fuel : Nat) (hf : 16 ≤ fuel) (x y : Int)
    (hx0 : 0 ≤ x) (hx1 : x ≤ 32767) (hy0 : 0 ≤ y) (hy1 : y ≤ 32767) :
    estring fuel x = some (if x = 0 then "" else "e" ++ indexString 15 x 1) ∧
    estring fuel y = some (if y = 0 then "" else "e" ++ indexString 15 y 1) ∧
    (x ≤ 2047 → y ≤ 2047 → estring fuel x = estring fuel y → x = y) := by
  obtain ⟨n, rfl, hn⟩ := exists_natCast_of_nonneg x hx0 hx1
  obtain ⟨k, rfl, hk⟩ := exists_natCast_of_nonneg y hy0 hy1
  have ex := estring_natCast fuel n hn hf
  have ey := estring_natCast fuel k hk hf
  refine ⟨?_, ?_, ?_⟩
  · exact ex
  · exact ey
  · intro hxle hyle heq
    have e16x := estring_natCast 16 n hn (le_refl _)
    have e16y := estring_natCast 16 k hk (le_refl _)
    have h16 : estring 16 (n : Int) = estring 16 (k : Int) := by
      rw [e16x, e16y, ← ex, ← ey]; exact heq
    have dx := decode_estring n (by omega)
    have dy := decode_estring k (by omega)
    rw [h16, dy] at dx
    have : k = n := Option.some.inj dx
    rw [this]

theorem estring_unambiguous_witness :
    16 ≤ 16 ∧ (0 ≤ (3 : Int) ∧ (3 : Int) ≤ 32767) ∧ (0 ≤ (1027 : Int) ∧ (1027 : Int) ≤ 32767) ∧
    (estring 16 3 = some (if (3 : Int) = 0 then "" else "e" ++ indexString 15 3 1) ∧
     estring 16 1027 = some (if (1027 : Int) = 0 then "" else "e" ++ indexString 15 1027 1) ∧
     ((3 : Int) ≤ 2047 → (1027 : Int) ≤ 2047 → estring 16 3 = estring 16 1027 →
       (3 : Int) = 1027)) :=
  ⟨by decide, by decide, by decide,
   estring_unambiguous 16 (by decide) 3 1027 (by decide) (by decide) (by decide) (by decide)⟩

end bits

/-! ## Arithmetic of `Double` -/

namespace Double

/-! ### The rounding functions -/

theorem log2Loop_spec : ∀ fuel n : Nat, n ≤ fuel → 0 < n →
    2 ^ log2Loop fuel n ≤ n ∧ n < 2 ^ (log2Loop fuel n + 1) := by
  intro fuel
  induction fuel with
  | zero => intro n h1 h2; omega
  | succ fuel ih =>
    intro n h1 h2
    unfold log2Loop
    by_cases h : n < 2
    · rw [if_pos h]
      constructor
      · simpa using h2
      · simpa using h
    · rw [if_neg h]
      have e := ih (n / 2) (by omega) (by omega)
      rw [pow_succ, pow_succ]
      constructor
      · have := e.1
        omega
      · have := e.2
        rw [pow_succ] at this
        omega

/-- The bits of `n > 0`: `2^(ilog2 n) ≤ n < 2^(ilog2 n + 1)`. -/
theorem ilog2_spec (n : Nat) (h : 0 < n) : 2 ^ ilog2 n ≤ n ∧ n < 2 ^ (ilog2 n + 1) :=
  log2Loop_spec n n (le_refl n) h

theorem isqrtLoop_eq_iter : ∀ fuel n x : Nat, x ≤ fuel → isqrtLoop fuel n x = Nat.sqrt.iter n x := by
  intro fuel
  induction fuel with
  | zero =>
    intro n x h
    have hx : x = 0 := by omega
    subst hx
    unfold isqrtLoop Nat.sqrt.iter
    simp
  | succ fuel ih =>
    intro n x h
    unfold isqrtLoop
    rw [Nat.sqrt.iter]
    simp only []
    by_cases hy : (x + n / x) / 2 < x
    · rw [if_pos hy, dif_pos hy]
      exact ih n _ (by omega)
    · rw [if_neg hy, dif_neg hy]

/-- The function `isqrt` is the integer square root. -/
theorem isqrt_spec (n : Nat) : isqrt n * isqrt n ≤ n ∧ n < (isqrt n + 1) * (isqrt n + 1) := by
  unfold isqrt
  rw [isqrtLoop_eq_iter _ _ _ (le_refl _)]
  refine ⟨Nat.sqrt.iter_sq_le _ _, Nat.sqrt.lt_iter_succ_sq _ _ ?_⟩
  rcases Nat.eq_zero_or_pos n with h0 | hpos
  · subst h0
    positivity
  · have h2 := (ilog2_spec n hpos).2
    have hle : ilog2 n + 1 ≤ 2 * (ilog2 n / 2 + 1) := by omega
    have h3 : 2 ^ (ilog2 n + 1) ≤ 2 ^ (2 * (ilog2 n / 2 + 1)) :=
      Nat.pow_le_pow_right (by norm_num) hle
    have h4 : 2 ^ (2 * (ilog2 n / 2 + 1)) = 2 ^ (ilog2 n / 2 + 1) * 2 ^ (ilog2 n / 2 + 1) := by
      rw [two_mul, pow_add]
    have h5 : 2 ^ (ilog2 n / 2 + 1) * 2 ^ (ilog2 n / 2 + 1)
        ≤ (2 ^ (ilog2 n / 2 + 1) + 1) * (2 ^ (ilog2 n / 2 + 1) + 1) :=
      Nat.mul_le_mul (Nat.le_succ _) (Nat.le_succ _)
    omega

theorem isqrt_eq_sqrt (n : Nat) : isqrt n = Nat.sqrt n := by
  have h := isqrt_spec n
  exact Nat.eq_sqrt.mpr ⟨h.1, h.2⟩

/-- `roundDiv n d` is a natural number nearest to `n / d`, the even one of the
two when `n / d` lies halfway. -/
theorem roundDiv_spec (n d : Nat) (hd : 0 < d) :
    2 * roundDiv n d * d ≤ 2 * n + d ∧ 2 * n ≤ 2 * roundDiv n d * d + d ∧
    ((2 * roundDiv n d * d = 2 * n + d ∨ 2 * n = 2 * roundDiv n d * d + d) →
      roundDiv n d % 2 = 0) := by
  have hdm := Nat.div_add_mod n d
  have hlt := Nat.mod_lt n hd
  unfold roundDiv
  simp only []
  generalize hq : n / d = q at *
  generalize hr : n % d = r at *
  have hn : n = d * q + r := hdm.symm
  subst hn
  have e1 : 2 * q * d = 2 * (d * q) := by ring
  have e2 : 2 * (q + 1) * d = 2 * (d * q) + 2 * d := by ring
  split_ifs with h1 h2 h3
  · rw [e1]; refine ⟨by omega, by omega, ?_⟩
    intro h; omega
  · rw [e2]; refine ⟨by omega, by omega, ?_⟩
    intro h; omega
  · rw [e1]; exact ⟨by omega, by omega, fun _ => h3⟩
  · rw [e2]; refine ⟨by omega, by omega, fun _ => ?_⟩
    omega

theorem ofScaled_eq (k : Nat) (s : Int) : ofScaled k s = (k : ℚ) * 2 ^ s := by
  unfold ofScaled
  by_cases h : 0 ≤ s
  · rw [if_pos h]
    obtain ⟨t, rfl⟩ := Int.eq_ofNat_of_zero_le h
    simp
  · rw [if_neg h]
    obtain ⟨t, ht⟩ : ∃ t : Nat, s = -(t : Int) := ⟨(-s).toNat, by omega⟩
    subst ht
    rw [Rat.mkRat_eq_div]
    simp [zpow_neg, div_eq_mul_inv]

theorem roundDiv_abs (n d : Nat) (hd : 0 < d) :
    |(roundDiv n d : ℚ) - (n : ℚ) / d| ≤ 1 / 2 := by
  obtain ⟨h1, h2, -⟩ := roundDiv_spec n d hd
  have hd' : (0 : ℚ) < d := by exact_mod_cast hd
  have h1' : (2 * roundDiv n d * d : ℚ) ≤ 2 * n + d := by exact_mod_cast h1
  have h2' : (2 * n : ℚ) ≤ 2 * roundDiv n d * d + d := by exact_mod_cast h2
  have hx : (n : ℚ) / d * d = n := by field_simp
  rw [abs_le]
  constructor
  · by_contra hc
    push_neg at hc
    have := mul_lt_mul_of_pos_right hc hd'
    nlinarith
  · by_contra hc
    push_neg at hc
    have := mul_lt_mul_of_pos_right hc hd'
    nlinarith

/-- The count `scaled n d s` of spacings `2^s` is nearest to `n / d`. -/
theorem scaled_spec (n d : Nat) (hd : 0 < d) (s : Int) :
    |(scaled n d s : ℚ) * 2 ^ s - (n : ℚ) / d| ≤ 2 ^ s / 2 := by
  have hd' : (0 : ℚ) < d := by exact_mod_cast hd
  have hp : (0 : ℚ) < 2 ^ s := by positivity
  unfold scaled
  by_cases h : 0 ≤ s
  · rw [if_pos h]
    obtain ⟨t, rfl⟩ := Int.eq_ofNat_of_zero_le h
    have e := roundDiv_abs n (d * 2 ^ t) (by positivity)
    simp only [Int.toNat_ofNat, zpow_natCast] at *
    have hx : (roundDiv n (d * 2 ^ t) : ℚ) * 2 ^ t - (n : ℚ) / d
        = ((roundDiv n (d * 2 ^ t) : ℚ) - (n : ℚ) / ((d * 2 ^ t : Nat) : ℚ)) * 2 ^ t := by
      push_cast
      field_simp
      ring
    rw [hx, abs_mul, abs_of_pos hp]
    calc |(roundDiv n (d * 2 ^ t) : ℚ) - (n : ℚ) / ((d * 2 ^ t : Nat) : ℚ)| * 2 ^ t
        ≤ 1 / 2 * 2 ^ t := mul_le_mul_of_nonneg_right e (le_of_lt hp)
      _ = 2 ^ t / 2 := by ring
  · rw [if_neg h]
    obtain ⟨t, ht⟩ : ∃ t : Nat, s = -(t : Int) := ⟨(-s).toNat, by omega⟩
    subst ht
    have e := roundDiv_abs (n * 2 ^ t) d hd
    simp only [neg_neg, Int.toNat_ofNat, zpow_neg, zpow_natCast] at *
    have hp2 : (0 : ℚ) < 2 ^ t := by positivity
    have hx : (roundDiv (n * 2 ^ t) d : ℚ) * (2 ^ t)⁻¹ - (n : ℚ) / d
        = ((roundDiv (n * 2 ^ t) d : ℚ) - ((n * 2 ^ t : Nat) : ℚ) / d) * (2 ^ t)⁻¹ := by
      push_cast
      field_simp
      ring
    rw [hx, abs_mul, abs_of_pos hp]
    calc |(roundDiv (n * 2 ^ t) d : ℚ) - ((n * 2 ^ t : Nat) : ℚ) / d| * (2 ^ t)⁻¹
        ≤ 1 / 2 * (2 ^ t)⁻¹ := mul_le_mul_of_nonneg_right e (le_of_lt hp)
      _ = (2 ^ t)⁻¹ / 2 := by ring

theorem floorLog2_spec (n d : Nat) (hn : 0 < n) (hd : 0 < d) :
    (2 : ℚ) ^ floorLog2 n d ≤ (n : ℚ) / d ∧ (n : ℚ) / d < 2 ^ (floorLog2 n d + 1) := by
  obtain ⟨a1, a2⟩ := ilog2_spec n hn
  obtain ⟨b1, b2⟩ := ilog2_spec d hd
  have hd' : (0 : ℚ) < d := by exact_mod_cast hd
  have a1' : (2 : ℚ) ^ (ilog2 n) ≤ n := by exact_mod_cast a1
  have a2' : (n : ℚ) < 2 ^ (ilog2 n + 1) := by exact_mod_cast a2
  have b1' : (2 : ℚ) ^ (ilog2 d) ≤ d := by exact_mod_cast b1
  have b2' : (d : ℚ) < 2 ^ (ilog2 d + 1) := by exact_mod_cast b2
  have two_ne : (2 : ℚ) ≠ 0 := by norm_num
  have pa : (0 : ℚ) < 2 ^ ilog2 n := by positivity
  have pb : (0 : ℚ) < 2 ^ ilog2 d := by positivity
  have e0 : (2 : ℚ) ^ ((ilog2 n : Int) - (ilog2 d : Int)) = 2 ^ ilog2 n / 2 ^ ilog2 d := by
    rw [zpow_sub₀ two_ne, zpow_natCast, zpow_natCast]
  -- lower and upper bounds one binade away
  have hlow : (2 : ℚ) ^ ((ilog2 n : Int) - (ilog2 d : Int) - 1) ≤ (n : ℚ) / d := by
    rw [zpow_sub₀ two_ne, e0, zpow_one, le_div_iff₀ hd', div_div, div_mul_eq_mul_div,
      div_le_iff₀ (by positivity)]
    rw [pow_succ] at b2'
    nlinarith
  have hup : (n : ℚ) / d < 2 ^ ((ilog2 n : Int) - (ilog2 d : Int) + 1) := by
    rw [zpow_add₀ two_ne, e0, zpow_one, div_lt_iff₀ hd', div_mul_eq_mul_div, div_mul_eq_mul_div,
      lt_div_iff₀ pb]
    rw [pow_succ] at a2'
    nlinarith
  have hc : (if 0 ≤ (ilog2 n : Int) - (ilog2 d : Int)
        then d * 2 ^ ((ilog2 n : Int) - (ilog2 d : Int)).toNat ≤ n
        else d ≤ n * 2 ^ (-((ilog2 n : Int) - (ilog2 d : Int))).toNat)
      ↔ (2 : ℚ) ^ ((ilog2 n : Int) - (ilog2 d : Int)) ≤ (n : ℚ) / d := by
    by_cases h : 0 ≤ (ilog2 n : Int) - (ilog2 d : Int)
    · rw [if_pos h]
      obtain ⟨t, ht⟩ := Int.eq_ofNat_of_zero_le h
      rw [ht, Int.toNat_ofNat, zpow_natCast, le_div_iff₀ hd']
      constructor
      · intro hh
        have : ((d * 2 ^ t : Nat) : ℚ) ≤ n := by exact_mod_cast hh
        push_cast at this
        linarith
      · intro hh
        have : ((d * 2 ^ t : Nat) : ℚ) ≤ n := by push_cast; linarith
        exact_mod_cast this
    · rw [if_neg h]
      obtain ⟨t, ht⟩ : ∃ t : Nat, (ilog2 n : Int) - (ilog2 d : Int) = -(t : Int) :=
        ⟨(-((ilog2 n : Int) - (ilog2 d : Int))).toNat, by omega⟩
      rw [ht, neg_neg, Int.toNat_ofNat, zpow_neg, zpow_natCast, le_div_iff₀ hd',
        inv_mul_le_iff₀ (by positivity)]
      constructor
      · intro hh
        have : (d : ℚ) ≤ ((n * 2 ^ t : Nat) : ℚ) := by exact_mod_cast hh
        push_cast at this
        linarith
      · intro hh
        have : (d : ℚ) ≤ ((n * 2 ^ t : Nat) : ℚ) := by push_cast; linarith
        exact_mod_cast this
  unfold floorLog2
  simp only []
  by_cases h : (if 0 ≤ (ilog2 n : Int) - (ilog2 d : Int)
        then d * 2 ^ ((ilog2 n : Int) - (ilog2 d : Int)).toNat ≤ n
        else d ≤ n * 2 ^ (-((ilog2 n : Int) - (ilog2 d : Int))).toNat)
  · rw [if_pos h]
    exact ⟨hc.mp h, hup⟩
  · rw [if_neg h]
    refine ⟨hlow, ?_⟩
    rw [sub_add_cancel]
    exact lt_of_not_le (fun hh => h (hc.mpr hh))

theorem abs_eq_natAbs_div (q : ℚ) : |q| = (q.num.natAbs : ℚ) / q.den := by
  have hd : (0 : ℚ) < q.den := by exact_mod_cast q.den_pos
  have e : |q| = |(q.num : ℚ) / q.den| := by rw [Rat.num_div_den]
  rw [e, abs_div, abs_of_pos hd, Nat.cast_natAbs, Int.cast_abs]

set_option exponentiation.threshold 2000 in
/-- Rounding to binary64: with `e = floorLog2` the binary exponent of `|q|`
and `2^s`, `s = max (e - 52) (-1074)`, the spacing of binary64 there, a finite
`ofRat q` is a multiple of `2^s` within half a spacing of `q` and below
`2^1024`; `ofRat q` is an infinity, of the sign of `q`, only for
`|q| ≥ 2^1024 - 2^970`. -/
theorem ofRat_spec (q : ℚ) (hq : q ≠ 0) :
    ((2 : ℚ) ^ floorLog2 q.num.natAbs q.den ≤ |q| ∧
      |q| < 2 ^ (floorLog2 q.num.natAbs q.den + 1)) ∧
    (∀ r, ofRat q = fin r →
      (∃ k : Int, r = k * 2 ^ quantum q.num.natAbs q.den) ∧
      |r - q| ≤ 2 ^ quantum q.num.natAbs q.den / 2 ∧ |r| < 2 ^ 1024) ∧
    (∀ b, ofRat q = inf b → (b = true ↔ q < 0) ∧ (2 : ℚ) ^ 1024 - 2 ^ 970 ≤ |q|) := by
  have hnum : q.num ≠ 0 := by rwa [Ne, Rat.num_eq_zero]
  have hn : 0 < q.num.natAbs := Int.natAbs_pos.mpr hnum
  have hd : 0 < q.den := q.den_pos
  have hfl := floorLog2_spec q.num.natAbs q.den hn hd
  rw [← abs_eq_natAbs_div] at hfl
  have hsc := scaled_spec q.num.natAbs q.den hd (quantum q.num.natAbs q.den)
  rw [← abs_eq_natAbs_div] at hsc
  have hneg : q.num < 0 ↔ q < 0 := Rat.num_neg
  have one_lt : (1 : ℚ) < 2 := by norm_num
  have hs1 : floorLog2 q.num.natAbs q.den - 52 ≤ quantum q.num.natAbs q.den := le_max_left _ _
  have hs2 : quantum q.num.natAbs q.den
      = max (floorLog2 q.num.natAbs q.den - 52) (-1074) := rfl
  generalize hK : scaled q.num.natAbs q.den (quantum q.num.natAbs q.den) = K at *
  generalize hS : quantum q.num.natAbs q.den = S at *
  generalize hE : floorLog2 q.num.natAbs q.den = E at *
  have hSpos : (0 : ℚ) < 2 ^ S := by positivity
  have hKS : (0 : ℚ) ≤ (K : ℚ) * 2 ^ S := by positivity
  obtain ⟨hsc1, hsc2⟩ := abs_le.mp hsc
  -- the magnitude of a finite result
  have hbound : ¬ (0 ≤ S ∧ 2 ^ 1024 ≤ K * 2 ^ S.toNat) → (K : ℚ) * 2 ^ S < 2 ^ 1024 := by
    intro hov
    by_cases h0 : 0 ≤ S
    · have hlt : K * 2 ^ S.toNat < 2 ^ 1024 := by
        by_contra hc
        exact hov ⟨h0, not_lt.mp hc⟩
      obtain ⟨t, rfl⟩ := Int.eq_ofNat_of_zero_le h0
      rw [Int.toNat_ofNat] at hlt
      rw [zpow_natCast]
      exact_mod_cast hlt
    · have hE52 : E + 1 ≤ 52 := by omega
      have h1 : (2 : ℚ) ^ (E + 1) ≤ 2 ^ (52 : Int) := zpow_le_zpow_right₀ (le_of_lt one_lt) hE52
      have h2 : (2 : ℚ) ^ S ≤ 2 ^ (0 : Int) := zpow_le_zpow_right₀ (le_of_lt one_lt) (by omega)
      have h3 : (2 : ℚ) ^ (52 : Int) + 1 < 2 ^ 1024 := by norm_num
      rw [zpow_zero] at h2
      linarith [hfl.2]
  refine ⟨hfl, ?_, ?_⟩
  · intro r hr
    unfold ofRat at hr
    rw [if_neg hnum] at hr
    simp only [] at hr
    rw [hS, hK] at hr
    split_ifs at hr with hov hlt
    · have hrq := (Double.fin.inj hr).symm
      have hq0 : q < 0 := hneg.mp hlt
      have habs : |q| = -q := abs_of_neg hq0
      rw [ofScaled_eq] at hrq
      rw [habs] at hsc1 hsc2
      refine ⟨⟨-(K : Int), ?_⟩, ?_, ?_⟩
      · rw [hrq]; push_cast; ring
      · rw [hrq, abs_le]
        constructor <;> linarith
      · rw [hrq, abs_neg, abs_of_nonneg hKS]
        exact hbound hov
    · have hrq := (Double.fin.inj hr).symm
      have hq0 : 0 < q := by
        rcases lt_trichotomy q 0 with h | h | h
        · exact absurd (hneg.mpr h) hlt
        · exact absurd h hq
        · exact h
      have habs : |q| = q := abs_of_pos hq0
      rw [ofScaled_eq] at hrq
      rw [habs] at hsc1 hsc2
      refine ⟨⟨(K : Int), ?_⟩, ?_, ?_⟩
      · rw [hrq]; push_cast; ring
      · rw [hrq, abs_le]
        constructor <;> linarith
      · rw [hrq, abs_of_nonneg hKS]
        exact hbound hov
  · intro b hb
    unfold ofRat at hb
    rw [if_neg hnum] at hb
    simp only [] at hb
    rw [hS, hK] at hb
    split_ifs at hb with hov
    have hbq := (Double.inf.inj hb).symm
    constructor
    · rw [hbq, decide_eq_true_eq]
      exact hneg
    · obtain ⟨h0, hge⟩ := hov
      obtain ⟨t, rfl⟩ := Int.eq_ofNat_of_zero_le h0
      rw [Int.toNat_ofNat] at hge
      have hge' : (2 : ℚ) ^ 1024 ≤ (K : ℚ) * 2 ^ (t : Int) := by
        rw [zpow_natCast]
        exact_mod_cast hge
      by_cases hbig : (2 : ℚ) ^ 1024 ≤ |q|
      · have : (0 : ℚ) < 2 ^ 970 := by positivity
        linarith
      · have hlt : (2 : ℚ) ^ E < 2 ^ (1024 : Int) := by
          have := hfl.1
          have h1024 : (2 : ℚ) ^ (1024 : Int) = 2 ^ 1024 := by norm_num
          rw [h1024]
          linarith [not_le.mp hbig]
        have hE : E < 1024 := (zpow_lt_zpow_iff_right₀ one_lt).mp hlt
        have ht : (t : Int) ≤ 971 := by
          rw [hs2]
          exact max_le (by omega) (by norm_num)
        have h2 : (2 : ℚ) ^ (t : Int) ≤ 2 ^ (971 : Int) := zpow_le_zpow_right₀ (le_of_lt one_lt) ht
        have h3 : (2 : ℚ) ^ (971 : Int) / 2 = 2 ^ 970 := by norm_num
        linarith

theorem sqrt_fin_of_pos (q : ℚ) (n d t x : Nat) (hn : q.num = n) (hn0 : 0 < n) (hd : q.den = d)
    (ht : t = 64 + ilog2 d) (hx : x = n * 4 ^ t / d) :
    sqrt (fin q) = ofRat ((if n * 4 ^ t % d = 0 ∧ isqrt x * isqrt x = x then (isqrt x : ℚ)
        else mkRat (2 * isqrt x + 1) 2) / ((2 ^ t : Nat) : ℚ)) := by
  have hna : q.num.natAbs = n := by omega
  subst ht hx
  unfold sqrt
  simp only []
  rw [if_neg (show ¬ q.num < 0 by omega), if_neg (show ¬ q.num = 0 by omega), hd, hna]

/-- The square root of a positive `q` is the rounding of `r / 2^t` when
`r^2 = q * 4^t` exactly, and of `(r + 1/2) / 2^t` otherwise, where `r` is the
integer part of the root of `q * 4^t` and has at least 64 bits. -/
theorem sqrt_spec (q : ℚ) (hq : 0 < q) :
    ∃ r t : Nat, 2 ^ 63 ≤ r ∧ (r : ℚ) ^ 2 ≤ q * 4 ^ t ∧ q * 4 ^ t < ((r : ℚ) + 1) ^ 2 ∧
      sqrt (fin q)
        = ofRat ((if (r : ℚ) ^ 2 = q * 4 ^ t then (r : ℚ) else (r : ℚ) + 1 / 2) / 2 ^ t) := by
  have hnum : 0 < q.num := Rat.num_pos.mpr hq
  obtain ⟨n, hn⟩ : ∃ n : Nat, q.num = n := ⟨q.num.toNat, by omega⟩
  obtain ⟨d, hdd⟩ : ∃ d : Nat, q.den = d := ⟨_, rfl⟩
  obtain ⟨t, ht⟩ : ∃ t : Nat, t = 64 + ilog2 d := ⟨_, rfl⟩
  obtain ⟨x, hx⟩ : ∃ x : Nat, x = n * 4 ^ t / d := ⟨_, rfl⟩
  have hn0 : 0 < n := by omega
  have hd : 0 < d := by rw [← hdd]; exact q.den_pos
  have hd' : (0 : ℚ) < d := by exact_mod_cast hd
  have hq' : q = (n : ℚ) / d := by
    conv_lhs => rw [← Rat.num_div_den q, hn, hdd]
    simp
  have hfin := sqrt_fin_of_pos q n d t x hn hn0 hdd ht hx
  obtain ⟨s1, s2⟩ := isqrt_spec x
  generalize isqrt x = r at *
  have hxd : x * d ≤ n * 4 ^ t := by rw [hx]; exact Nat.div_mul_le_self _ _
  have hxd2 : n * 4 ^ t < (x + 1) * d := by
    rw [← Nat.div_lt_iff_lt_mul hd, ← hx]
    exact Nat.lt_succ_self x
  have hdm : d * x + n * 4 ^ t % d = n * 4 ^ t := by rw [hx]; exact Nat.div_add_mod _ _
  have hqx : q * 4 ^ t = ((n * 4 ^ t : Nat) : ℚ) / d := by
    rw [hq']; push_cast; ring
  have hxle : (x : ℚ) ≤ q * 4 ^ t := by
    rw [hqx, le_div_iff₀ hd']
    exact_mod_cast hxd
  have hxlt : q * 4 ^ t < (x : ℚ) + 1 := by
    rw [hqx, div_lt_iff₀ hd']
    exact_mod_cast hxd2
  have hs1 : (r : ℚ) ^ 2 ≤ x := by
    have : ((r * r : Nat) : ℚ) ≤ x := by exact_mod_cast s1
    push_cast at this
    nlinarith
  have hs2 : (x : ℚ) + 1 ≤ ((r : ℚ) + 1) ^ 2 := by
    have : ((x + 1 : Nat) : ℚ) ≤ (((r + 1) * (r + 1) : Nat) : ℚ) := by
      exact_mod_cast s2
    push_cast at this
    nlinarith
  have hbig : 2 ^ 63 ≤ r := by
    obtain ⟨-, b2⟩ := ilog2_spec d hd
    have h4a : 4 ^ ilog2 d = 2 ^ ilog2 d * 2 ^ ilog2 d := by
      rw [show (4 : Nat) = 2 * 2 by norm_num, mul_pow]
    have h4 : 4 ^ t = 4 ^ 64 * (2 ^ ilog2 d * 2 ^ ilog2 d) := by
      rw [ht, pow_add, h4a]
    have hxge : 4 ^ 63 ≤ x := by
      rw [hx, Nat.le_div_iff_mul_le hd, h4]
      rw [pow_succ] at b2
      have hp : 1 ≤ 2 ^ ilog2 d := Nat.one_le_two_pow
      have : d ≤ 4 * (2 ^ ilog2 d * 2 ^ ilog2 d) := by nlinarith
      calc 4 ^ 63 * d ≤ 4 ^ 63 * (4 * (2 ^ ilog2 d * 2 ^ ilog2 d)) := Nat.mul_le_mul_left _ this
        _ = 1 * (4 ^ 64 * (2 ^ ilog2 d * 2 ^ ilog2 d)) := by ring
        _ ≤ n * (4 ^ 64 * (2 ^ ilog2 d * 2 ^ ilog2 d)) := Nat.mul_le_mul_right _ hn0
    by_contra hc
    have hlt : r + 1 ≤ 2 ^ 63 := by omega
    have : (r + 1) * (r + 1) ≤ 2 ^ 63 * 2 ^ 63 := Nat.mul_le_mul hlt hlt
    have e : (2 : Nat) ^ 63 * 2 ^ 63 = 4 ^ 63 := by norm_num
    omega
  refine ⟨r, t, hbig, le_trans hs1 hxle, lt_of_lt_of_le hxlt hs2, ?_⟩
  have hexact : (n * 4 ^ t % d = 0 ∧ r * r = x) ↔ (r : ℚ) ^ 2 = q * 4 ^ t := by
    constructor
    · rintro ⟨h1, h2⟩
      have hxe : (x : ℚ) = q * 4 ^ t := by
        rw [hqx, eq_div_iff (ne_of_gt hd')]
        have : x * d = n * 4 ^ t := by rw [h1] at hdm; rw [← hdm]; ring
        exact_mod_cast this
      rw [← hxe, ← h2]
      push_cast
      ring
    · intro h
      have hxq : (x : ℚ) ≤ (r : ℚ) ^ 2 := by rw [h]; exact hxle
      have hxn : x ≤ r * r := by
        have : (x : ℚ) ≤ ((r * r : Nat) : ℚ) := by push_cast; nlinarith
        exact_mod_cast this
      have hxx : r * r = x := le_antisymm s1 hxn
      refine ⟨?_, hxx⟩
      have hxe : (x : ℚ) = q * 4 ^ t := by rw [← h, ← hxx]; push_cast; ring
      rw [hqx, eq_div_iff (ne_of_gt hd')] at hxe
      have : x * d = n * 4 ^ t := by exact_mod_cast hxe
      have : d * x = n * 4 ^ t := by rw [← this]; ring
      omega
  rw [hfin]
  by_cases he : n * 4 ^ t % d = 0 ∧ r * r = x
  · rw [if_pos he, if_pos (hexact.mp he)]
    push_cast
    rfl
  · rw [if_neg he, if_neg (fun h => he (hexact.mpr h)), Rat.mkRat_eq_div]
    congr 1
    push_cast
    ring

/-! ### Values of the operations -/

/-- Values of the operations at a few arguments, as IEEE 754 binary64 gives
them: `0.1` and `1/3` round to 53 bits, `sqrt 2` is correctly rounded, the
square of `1e200` overflows, the square of `1e-200` underflows to zero, and
`inf - inf`, `0 * inf`, `0 / 0` are NaN. -/
theorem sample_values :
    (0.1 : Double) = fin (3602879701896397 / 36028797018963968) ∧
    (1.0 : Double) / 3.0 = fin (6004799503160661 / 18014398509481984) ∧
    sqrt 2.0 = fin (6369051672525773 / 4503599627370496) ∧
    (0.1 : Double) + 0.2 = fin (1351079888211149 / 4503599627370496) ∧
    (1e200 : Double) * 1e200 = inf false ∧
    (1e-200 : Double) * 1e-200 = 0 ∧
    (inf false : Double) - inf false = nan ∧
    (0 : Double) * inf false = nan ∧
    (0 : Double) / 0 = nan ∧
    (1.0 : Double) / 0 = inf false := by
  refine ⟨?_, ?_, ?_, ?_, ?_, ?_, ?_, ?_, ?_, ?_⟩ <;> decide!

/-- Rounding at the edges of the format: ties go to the even neighbour, half
the least subnormal `2^(-1074)` rounds to zero, and the midpoint
`2^1024 - 2^970` above the greatest finite value rounds to an infinity. -/
theorem rounding_cases :
    ofRat (2 ^ 53 + 1) = fin (2 ^ 53) ∧
    ofRat (2 ^ 53 + 3) = fin (2 ^ 53 + 4) ∧
    ofRat (1 / 2 ^ 1075) = fin 0 ∧
    ofRat (3 / 2 ^ 1075) = fin (1 / 2 ^ 1073) ∧
    ofRat (2 ^ 1024 - 2 ^ 970 - 1) = fin (2 ^ 1024 - 2 ^ 971) ∧
    ofRat (2 ^ 1024 - 2 ^ 970) = inf false ∧
    ofRat (-(2 ^ 1024)) = inf true := by
  refine ⟨?_, ?_, ?_, ?_, ?_, ?_, ?_⟩ <;> decide!

theorem sub_fin_self (q : ℚ) : (fin q : Double) - fin q = 0 := by
  show ofRat (q + -q) = fin 0
  rw [add_neg_cancel]
  rfl

theorem sub_inf_self (s : Bool) : (inf s : Double) - inf s = nan := by
  cases s <;> rfl

theorem sub_nan_self : (nan : Double) - nan = nan := rfl

theorem zero_mul_half : (0 : Double) * 0.5 = 0 := by decide!

theorem nan_mul_half : (nan : Double) * 0.5 = nan := rfl

/-- The coefficient `(x - x) * .5` is zero for a finite `x` and NaN for an
infinity or NaN. -/
theorem sub_self_mul_half (x : Double) :
    ((x - x) * 0.5 = 0 ↔ x.isFinite = true) ∧
    (x.isFinite = false → (x - x) * 0.5 = nan) := by
  cases x with
  | fin q => rw [sub_fin_self, zero_mul_half]; simp [isFinite]
  | inf s => rw [sub_inf_self, nan_mul_half]; simp [isFinite]
  | nan => rw [sub_nan_self, nan_mul_half]; simp [isFinite]

end Double

/-! ## Loops of the multivector operators -/

namespace Multivector

theorem ext_val {α : Type} {Num : Nat} (a b : Multivector α Num)
    (h : ∀ i, a.val i = b.val i) : a = b := by
  cases a; cases b
  congr
  exact funext h

theorem forLoop_set_from {α : Type} {Num : Nat} (g : Fin Num → α → α) :
    ∀ (k i : Nat) (s : Multivector α Num), Num - i = k →
      forLoop Num (fun j tmp => tmp.set j (g j (tmp.val j))) s i
        = ⟨fun j => if i ≤ j.val then g j (s.val j) else s.val j⟩ := by
  intro k
  induction k with
  | zero =>
    intro i s hk
    rw [forLoop, dif_neg (by omega)]
    apply ext_val
    intro j
    have : ¬ i ≤ j.val := by have := j.isLt; omega
    simp [this]
  | succ k ih =>
    intro i s hk
    have hi : i < Num := by omega
    rw [forLoop, dif_pos hi, ih (i + 1) _ (by omega)]
    apply ext_val
    intro j
    simp only [set]
    by_cases hji : j = ⟨i, hi⟩
    · subst hji
      simp
    · have hne : j.val ≠ i := fun h => hji (Fin.ext h)
      rw [Function.update_noteq hji]
      by_cases hle : i + 1 ≤ j.val
      · have : i ≤ j.val := by omega
        simp [hle, this]
      · have : ¬ i ≤ j.val := by omega
        simp [hle, this]

theorem forLoop_set {α : Type} {Num : Nat} (g : Fin Num → α → α) (s : Multivector α Num) :
    forLoop Num (fun j tmp => tmp.set j (g j (tmp.val j))) s
      = ⟨fun j => g j (s.val j)⟩ := by
  rw [forLoop_set_from g (Num - 0) 0 s rfl]
  apply ext_val
  intro j
  simp

theorem sub_val {α : Type} {Num : Nat} [Zero α] [Sub α] (m a : Multivector α Num)
    (i : Fin Num) : (sub m a).val i = m.val i - a.val i := by
  unfold sub
  rw [forLoop_set (fun j _ => m.val j - a.val j)]

theorem mulScalar_val {α : Type} {Num : Nat} [Mul α] (m : Multivector α Num) (f : α)
    (i : Fin Num) : (mulScalar m f).val i = m.val i * f := by
  unfold mulScalar
  rw [forLoop_set (fun _ x => x * f)]

theorem divScalar_val {α : Type} {Num : Nat} [Div α] (m : Multivector α Num) (f : α)
    (i : Fin Num) : (divScalar m f).val i = m.val i / f := by
  unfold divScalar
  rw [forLoop_set (fun _ x => x / f)]

theorem fabs_eq_abs {α : Type} [Lattice α] [AddGroup α] (x : α) : Fabs.fabs x = |x| := rfl

theorem zero_val {α : Type} {Num : Nat} [Zero α] (i : Fin Num) :
    (zero : Multivector α Num).val i = 0 := rfl

theorem equalsFrom_iff {α : Type} {Num : Nat} [DecidableEq α] (a b : Multivector α Num) :
    ∀ (k i : Nat), Num - i = k →
      (equalsFrom a b i = true ↔ ∀ j : Fin Num, i ≤ j.val → a.val j = b.val j) := by
  intro k
  induction k with
  | zero =>
    intro i hk
    rw [equalsFrom, dif_neg (by omega)]
    constructor
    · intro _ j hj
      have := j.isLt
      omega
    · intro _; rfl
  | succ k ih =>
    intro i hk
    have hi : i < Num := by omega
    rw [equalsFrom, dif_pos hi]
    by_cases hab : a.val ⟨i, hi⟩ = b.val ⟨i, hi⟩
    · rw [if_neg (not_not.mpr hab), ih (i + 1) (by omega)]
      constructor
      · intro h j hj
        by_cases hji : j.val = i
        · have : j = ⟨i, hi⟩ := Fin.ext hji
          rw [this]; exact hab
        · exact h j (by omega)
      · intro h j hj
        exact h j (by omega)
    · rw [if_pos hab]
      constructor
      · intro h; exact absurd h (by decide)
      · intro h
        exact absurd (h ⟨i, hi⟩ (le_refl _)) hab

theorem equals_iff {α : Type} {Num : Nat} [DecidableEq α] (a b : Multivector α Num) :
    equals a b = true ↔ ∀ j : Fin Num, a.val j = b.val j := by
  unfold equals
  rw [equalsFrom_iff a b (Num - 0) 0 rfl]
  constructor
  · intro h j; exact h j (Nat.zero_le _)
  · intro h j _; exact h j

theorem commutator_val {α : Type} {Num P : Nat} [Zero α] [Sub α] [Mul α] [OfScientific α]
    (gp : Multivector α Num → Multivector α Num → Multivector α P)
    (m b : Multivector α Num) (i : Fin P) :
    (commutator gp m b).val i = ((gp m b).val i - (gp b m).val i) * 0.5 := by
  unfold commutator
  rw [mulScalar_val, sub_val]

theorem divScalar_dblVec (x y t : Double) :
    divScalar (dblVec x y) t = dblVec (x / t) (y / t) := by
  apply ext_val
  intro i
  rw [divScalar_val]
  fin_cases i <;> rfl

theorem unit_dblVec (x y t : Double)
    (ht : Double.sqrt (Double.fabs (x * x + y * y)) = t) (h0 : t ≠ 0) :
    unit dblIp Double.sqrt (dblVec x y) = dblVec (x / t) (y / t) := by
  subst ht
  unfold unit
  have h : Double.sqrt (Fabs.fabs ((dblIp (dblVec x y) (dblVec x y)).val 0)) ≠ 0 := h0
  simp only [h, if_false]
  exact divScalar_dblVec _ _ _

theorem equals_dblVec_of_ne (a b c d : Double) (h : a ≠ c) :
    equals (dblVec a b) (dblVec c d) = false := by
  cases hq : equals (dblVec a b) (dblVec c d) with
  | false => rfl
  | true =>
    rw [equals_iff] at hq
    exact absurd (hq 0) h

end Multivector

/-! ## Properties of the multivector operators -/

namespace Multivector

theorem sqrtRat_one : sqrtRat 1 = 1 := by
  unfold sqrtRat
  have h1 : (1 : ℚ).num.toNat = 1 * 1 := rfl
  have h2 : (1 : ℚ).den = 1 * 1 := rfl
  rw [h1, h2, Nat.sqrt_eq]
  norm_num

theorem sqrtRat_twentyfive : sqrtRat 25 = 5 := by
  unfold sqrtRat
  have h1 : (25 : ℚ).num.toNat = 5 * 5 := rfl
  have h2 : (25 : ℚ).den = 1 * 1 := rfl
  rw [h1, h2, Nat.sqrt_eq, Nat.sqrt_eq]
  norm_num

theorem planeIp_self (x y : ℚ) : (planeIp (planeVec x y) (planeVec x y)).val 0 = x * x + y * y := by
  simp [planeIp, planeVec]

theorem planeGp_self (x y : ℚ) : (planeGp (planeVec x y) (planeVec x y)).val 0 = x * x + y * y := by
  simp [planeGp, planeVec]

/-- C12: with `r = ~m` and `v = (m * r)[0]`, the inverse `!m` is `r` unscaled
when `v` is exactly zero, and otherwise `r` with every coefficient divided by
`v`; `inverse` is a total function, no error is raised in either case. -/
theorem inverse_fallback {α : Type} {Num P : Nat} [Zero α] [Div α] [DecidableEq α]
    (rev : Multivector α Num → Multivector α Num)
    (gp : Multivector α Num → Multivector α Num → Multivector α (P + 1))
    (m : Multivector α Num) :
    ((gp m (rev m)).val 0 = 0 → inverse rev gp m = rev m) ∧
    ((gp m (rev m)).val 0 ≠ 0 →
      ∀ i, (inverse rev gp m).val i = (rev m).val i / (gp m (rev m)).val 0) := by
  constructor
  · intro h
    unfold inverse
    simp only [h, if_true]
  · intro h i
    unfold inverse
    simp only [h, if_false]
    exact divScalar_val _ _ i

theorem inverse_fallback_witness :
    ((planeGp (planeVec 0 0) (planeVec 0 0)).val 0 = 0 ∧
      inverse (fun x => x) planeGp (planeVec 0 0) = planeVec 0 0) ∧
    ((planeGp (planeVec 3 4) (planeVec 3 4)).val 0 ≠ 0 ∧
      ∀ i, (inverse (fun x => x) planeGp (planeVec 3 4)).val i
        = (planeVec 3 4).val i / (planeGp (planeVec 3 4) (planeVec 3 4)).val 0) :=
  ⟨⟨by rw [planeGp_self]; norm_num,
    (inverse_fallback (fun x => x) planeGp (planeVec 0 0)).1 (by rw [planeGp_self]; norm_num)⟩,
   ⟨by rw [planeGp_self]; norm_num,
    (inverse_fallback (fun x => x) planeGp (planeVec 3 4)).2 (by rw [planeGp_self]; norm_num)⟩⟩


theorem divScalar_zero {α : Type} {Num : Nat} [LinearOrderedField α] (t : α) :
    divScalar (zero : Multivector α Num) t = zero := by
  apply ext_val
  intro i
  rw [divScalar_val, zero_val, zero_div]

/-- C13: `unit` returns the all-zero element when `sqrt(|wt|) = 0`, `runit`
when `rnorm = 0`, `tunit` when `norm = 0` (which includes every `m` with
`rwt < 0`); otherwise each returns `m` with every coefficient divided by that
norm.  Normalizing the zero multivector yields the zero multivector. -/
theorem unit_zero_guard {α : Type} {Num P : Nat} [LinearOrderedField α]
    (ip : Multivector α Num → Multivector α Num → Multivector α (P + 1))
    (rev : Multivector α Num → Multivector α Num) (sqrt : α → α)
    (m : Multivector α Num) :
    (sqrt |wt ip m| = 0 → unit ip sqrt m = zero) ∧
    (sqrt |wt ip m| ≠ 0 → ∀ i, (unit ip sqrt m).val i = m.val i / sqrt |wt ip m|) ∧
    (rnorm ip rev sqrt m = 0 → runit ip rev sqrt m = zero) ∧
    (rnorm ip rev sqrt m ≠ 0 →
      ∀ i, (runit ip rev sqrt m).val i = m.val i / rnorm ip rev sqrt m) ∧
    (norm ip rev sqrt m = 0 → tunit ip rev sqrt m = zero) ∧
    (norm ip rev sqrt m ≠ 0 →
      ∀ i, (tunit ip rev sqrt m).val i = m.val i / norm ip rev sqrt m) ∧
    (rwt ip rev m < 0 → tunit ip rev sqrt m = zero) ∧
    unit ip sqrt (zero : Multivector α Num) = zero ∧
    runit ip rev sqrt (zero : Multivector α Num) = zero ∧
    tunit ip rev sqrt (zero : Multivector α Num) = zero := by
  refine ⟨?_, ?_, ?_, ?_, ?_, ?_, ?_, ?_, ?_, ?_⟩
  · intro h
    unfold unit
    unfold wt at h
    simp only [fabs_eq_abs, h, if_true]
  · intro h i
    unfold unit
    unfold wt at h
    simp only [fabs_eq_abs, h, if_false]
    exact divScalar_val _ _ i
  · intro h
    unfold runit
    simp only [h, if_true]
  · intro h i
    unfold runit
    simp only [h, if_false]
    exact divScalar_val _ _ i
  · intro h
    unfold tunit
    simp only [h, if_true]
  · intro h i
    unfold tunit
    simp only [h, if_false]
    exact divScalar_val _ _ i
  · intro h
    have hn : norm ip rev sqrt m = 0 := by
      unfold norm
      simp only [h, if_true]
    unfold tunit
    simp only [hn, if_true]
  · unfold unit
    simp only []
    split_ifs
    · rfl
    · exact divScalar_zero _
  · unfold runit
    simp only []
    split_ifs
    · rfl
    · exact divScalar_zero _
  · unfold tunit
    simp only []
    split_ifs
    · rfl
    · exact divScalar_zero _

theorem unit_zero_guard_witness :
    (sqrtRat |wt planeIp (planeVec 0 0)| = 0 ∧ unit planeIp sqrtRat (planeVec 0 0) = zero) ∧
    (sqrtRat |wt planeIp (planeVec 3 4)| ≠ 0 ∧
      ∀ i, (unit planeIp sqrtRat (planeVec 3 4)).val i
        = (planeVec 3 4).val i / sqrtRat |wt planeIp (planeVec 3 4)|) :=
  ⟨⟨by unfold wt; rw [planeIp_self]; norm_num [sqrtRat],
    (unit_zero_guard planeIp (fun x => x) sqrtRat (planeVec 0 0)).1
      (by unfold wt; rw [planeIp_self]; norm_num [sqrtRat])⟩,
   ⟨by unfold wt; rw [planeIp_self]; norm_num [sqrtRat_twentyfive],
    (unit_zero_guard planeIp (fun x => x) sqrtRat (planeVec 3 4)).2.1
      (by unfold wt; rw [planeIp_self]; norm_num [sqrtRat_twentyfive])⟩⟩

/-- C15: reversion is an involution, `~(~m) = m` (also under `operator==`),
where `~` negates exactly the coefficients whose basis blade satisfies
`bits::reverse` and leaves the other coefficients unchanged. -/
theorem reversion_involutive {α : Type} {Num : Nat} [InvolutiveNeg α] [DecidableEq α]
    (basis : Fin Num → Int) (m : Multivector α Num) :
    reversion basis (reversion basis m) = m ∧
    equals (reversion basis (reversion basis m)) m = true ∧
    (∀ i, bits.reverse (basis i) = true → (reversion basis m).val i = - m.val i) ∧
    (∀ i, bits.reverse (basis i) = false → (reversion basis m).val i = m.val i) := by
  have hinv : reversion basis (reversion basis m) = m := by
    apply ext_val
    intro i
    unfold reversion reverseMake
    by_cases h : bits.reverse (basis i) = true
    · simp only [h, if_true, neg_neg]
    · simp [h]
  refine ⟨hinv, ?_, ?_, ?_⟩
  · rw [hinv, equals_iff]
    intro j; rfl
  · intro i h
    unfold reversion reverseMake
    simp only [h, if_true]
  · intro i h
    unfold reversion reverseMake
    simp [h]

theorem reversion_involutive_witness :
    bits.reverse 3 = true ∧ bits.reverse 0 = false ∧
    (reversion (fun i : Fin 2 => if i.val = 0 then 0 else 3) (planeVec 3 4)).val 1
      = - (planeVec 3 4).val 1 ∧
    (reversion (fun i : Fin 2 => if i.val = 0 then 0 else 3) (planeVec 3 4)).val 0
      = (planeVec 3 4).val 0 ∧
    reversion (fun i : Fin 2 => if i.val = 0 then 0 else 3)
      (reversion (fun i : Fin 2 => if i.val = 0 then 0 else 3) (planeVec 3 4)) = planeVec 3 4 :=
  ⟨bits.reverse_e12, bits.reverse_scalar,
   (reversion_involutive (fun i : Fin 2 => if i.val = 0 then 0 else 3) (planeVec 3 4)).2.2.1 1
     bits.reverse_e12,
   (reversion_involutive (fun i : Fin 2 => if i.val = 0 then 0 else 3) (planeVec 3 4)).2.2.2 0
     bits.reverse_scalar,
   (reversion_involutive (fun i : Fin 2 => if i.val = 0 then 0 else 3) (planeVec 3 4)).1⟩

/-- Over exact coefficients (a field) every slot of `m % m` is
`(x - x) * .5 = 0`, whatever the geometric product returns. -/
theorem commutator_self_of_field {α : Type} {Num P : Nat} [Field α]
    (gp : Multivector α Num → Multivector α Num → Multivector α P)
    (m : Multivector α Num) :
    commutator gp m m = zero ∧ ∀ i, (commutator gp m m).val i = 0 := by
  have h : ∀ i, (commutator gp m m).val i = 0 := by
    intro i
    rw [commutator_val, sub_self, zero_mul]
  exact ⟨ext_val _ _ h, h⟩

/-- C16 (counterexample): for the plane vector `m = 1e200 e1`, whose two
coefficients are finite, the scalar part of the geometric product `m * m`
overflows to `+inf`, and slot 0 of `m % m` is `(inf - inf) * .5`, which is
NaN: `m % m` is not the zero element. -/
theorem commutator_self_overflow :
    ((1e200 : Double).isFinite = true ∧ (0 : Double).isFinite = true) ∧
    (dblGp (dblVec 1e200 0) (dblVec 1e200 0)).val 0 = Double.inf false ∧
    (commutator dblGp (dblVec 1e200 0) (dblVec 1e200 0)).val 0 = Double.nan ∧
    (commutator dblGp (dblVec 1e200 0) (dblVec 1e200 0)).val 0 ≠ 0 ∧
    commutator dblGp (dblVec 1e200 0) (dblVec 1e200 0) ≠ zero := by
  have h0 : (commutator dblGp (dblVec 1e200 0) (dblVec 1e200 0)).val 0 = Double.nan := by
    rw [commutator_val]
    decide!
  refine ⟨⟨by decide!, by decide!⟩, by decide!, h0, ?_, ?_⟩
  · rw [h0]
    decide
  · intro hz
    rw [hz] at h0
    exact absurd h0 (by decide)

/-- C16 (as amended): in `double` arithmetic, for every `m` and whatever the
geometric product `m * m` returns, slot `i` of `m % m`, computed as
`((m * m) - (m * m)) * 0.5`, is zero exactly when slot `i` of `m * m` is
finite, and NaN when it is an infinity or NaN; so `m % m` is the zero element
exactly when every coefficient of `m * m` is finite. -/
theorem commutator_self_finite {Num P : Nat}
    (gp : Multivector Double Num → Multivector Double Num → Multivector Double P)
    (m : Multivector Double Num) :
    (∀ i, (commutator gp m m).val i = 0 ↔ ((gp m m).val i).isFinite = true) ∧
    (∀ i, ((gp m m).val i).isFinite = false → (commutator gp m m).val i = Double.nan) ∧
    (commutator gp m m = zero ↔ ∀ i, ((gp m m).val i).isFinite = true) := by
  have h : ∀ i, (commutator gp m m).val i = 0 ↔ ((gp m m).val i).isFinite = true := by
    intro i
    rw [commutator_val]
    exact (Double.sub_self_mul_half _).1
  refine ⟨h, ?_, ?_, ?_⟩
  · intro i hi
    rw [commutator_val]
    exact (Double.sub_self_mul_half _).2 hi
  · intro hz i
    rw [← h, hz]
    rfl
  · intro hf
    apply ext_val
    intro i
    rw [(h i).mpr (hf i)]
    rfl

theorem commutator_self_finite_witness :
    (∀ i, ((dblGp (dblVec 3.0 4.0) (dblVec 3.0 4.0)).val i).isFinite = true) ∧
    commutator dblGp (dblVec 3.0 4.0) (dblVec 3.0 4.0) = zero ∧
    ((dblGp (dblVec 1e200 0) (dblVec 1e200 0)).val 0).isFinite = false ∧
    (commutator dblGp (dblVec 1e200 0) (dblVec 1e200 0)).val 0 = Double.nan :=
  have hf : ∀ i, ((dblGp (dblVec 3.0 4.0) (dblVec 3.0 4.0)).val i).isFinite = true := by
    intro i
    fin_cases i <;> decide!
  ⟨hf, (commutator_self_finite dblGp (dblVec 3.0 4.0)).2.2.mpr hf,
   by decide!,
   (commutator_self_finite dblGp (dblVec 1e200 0)).2.1 0 (by decide!)⟩

/-- C17: `a == b` is true iff `a[i] = b[i]` for every slot `i` in
`0..Num-1`, with no tolerance; over exact coefficients it is reflexive,
symmetric and transitive. -/
theorem equals_exact {α : Type} {Num : Nat} [DecidableEq α] (a b c : Multivector α Num) :
    (equals a b = true ↔ ∀ i : Fin Num, a.val i = b.val i) ∧
    (equals a b = true ↔ a = b) ∧
    equals a a = true ∧
    equals a b = equals b a ∧
    (equals a b = true → equals b c = true → equals a c = true) := by
  have hext : ∀ x y : Multivector α Num, equals x y = true ↔ x = y := by
    intro x y
    rw [equals_iff]
    constructor
    · exact ext_val x y
    · intro h j; rw [h]
  refine ⟨equals_iff a b, hext a b, (hext a a).mpr rfl, ?_, ?_⟩
  · rw [Bool.eq_iff_iff, hext, hext]
    exact eq_comm
  · intro h1 h2
    rw [hext] at h1 h2 ⊢
    rw [h1, h2]

theorem equals_exact_witness :
    equals (planeVec 3 4) (planeVec 3 4) = true ∧
    (equals (planeVec 3 4) (planeVec 3 4) = true → equals (planeVec 3 4) (planeVec 3 4) = true →
      equals (planeVec 3 4) (planeVec 3 4) = true) :=
  ⟨(equals_exact (planeVec 3 4) (planeVec 3 4) (planeVec 3 4)).2.2.1,
   (equals_exact (planeVec 3 4) (planeVec 3 4) (planeVec 3 4)).2.2.2.2⟩

/-- C18 (counterexample): reading or writing slot 2 or slot -1 of a
two-slot multivector is not stopped by an assertion: the source forwards the
index to `std::array::operator[]` unchecked. -/
theorem index_out_of_range_unchecked :
    index (planeVec 3 4) 2 = Access.unchecked ∧ index (planeVec 3 4) 2 ≠ Access.failed ∧
    index (planeVec 3 4) (-1) = Access.unchecked ∧ index (planeVec 3 4) (-1) ≠ Access.failed ∧
    indexSet (planeVec 3 4) 2 7 = Access.unchecked ∧
    indexSet (planeVec 3 4) 2 7 ≠ Access.failed := by
  have h1 : index (planeVec 3 4) 2 = Access.unchecked := by
    unfold index; rw [dif_neg (by decide)]
  have h2 : index (planeVec 3 4) (-1) = Access.unchecked := by
    unfold index; rw [dif_neg (by decide)]
  have h3 : indexSet (planeVec 3 4) 2 7 = Access.unchecked := by
    unfold indexSet; rw [dif_neg (by decide)]
  refine ⟨h1, ?_, h2, ?_, h3, ?_⟩
  · rw [h1]; exact fun h => Access.noConfusion h
  · rw [h2]; exact fun h => Access.noConfusion h
  · rw [h3]; exact fun h => Access.noConfusion h

/-- C18 (as amended): for `0 ≤ idx < Num`, `m[idx]` reads slot `idx` and
`m[idx] = v` writes it; for `idx < 0` or `idx ≥ Num` the subscript is
forwarded unchecked; in no case does the operator stop with an assertion. -/
theorem index_in_range {α : Type} {Num : Nat} (m : Multivector α Num) (idx : Int) (v : α) :
    (∀ h : 0 ≤ idx ∧ idx < (Num : Int),
      index m idx = Access.value (m.val ⟨idx.toNat, by omega⟩) ∧
      indexSet m idx v = Access.value (m.set ⟨idx.toNat, by omega⟩ v)) ∧
    ((idx < 0 ∨ (Num : Int) ≤ idx) →
      index m idx = Access.unchecked ∧ indexSet m idx v = Access.unchecked) ∧
    index m idx ≠ Access.failed ∧ indexSet m idx v ≠ Access.failed := by
  refine ⟨?_, ?_, ?_, ?_⟩
  · intro h
    unfold index indexSet
    rw [dif_pos h, dif_pos h]
    exact ⟨rfl, rfl⟩
  · intro h
    have hn : ¬ (0 ≤ idx ∧ idx < (Num : Int)) := by omega
    unfold index indexSet
    rw [dif_neg hn, dif_neg hn]
    exact ⟨rfl, rfl⟩
  · unfold index
    split
    · exact fun h => Access.noConfusion h
    · exact fun h => Access.noConfusion h
  · unfold indexSet
    split
    · exact fun h => Access.noConfusion h
    · exact fun h => Access.noConfusion h

theorem index_in_range_witness :
    ((1 : Int) < 0 ∨ ((2 : Nat) : Int) ≤ 1 → index (planeVec 3 4) 1 = Access.unchecked ∧
      indexSet (planeVec 3 4) 1 7 = Access.unchecked) ∧
    index (planeVec 3 4) 1 = Access.value 4 ∧
    ((-1 : Int) < 0 ∨ ((2 : Nat) : Int) ≤ -1) ∧
    index (planeVec 3 4) (-1) = Access.unchecked :=
  ⟨(index_in_range (planeVec 3 4) 1 7).2.1,
   ((index_in_range (planeVec 3 4) 1 7).1 (by decide)).1,
   by decide,
   ((index_in_range (planeVec 3 4) (-1) 7).2.1 (by decide)).1⟩

/-- C20 (counterexample): in `double` arithmetic with the correctly rounded
`sqrt`, the plane vector `m = e1 + e2` has weight 2, the contraction scales
quadratically under the division by `t = sqrt(|wt|)` as the claim supposes,
yet `m.unit()` has both coefficients `0x1.6a09e667f3bccp-1` and
`m.unit().unit()` has both coefficients `0x1.6a09e667f3bcdp-1`, one unit in
the last place above, so `m.unit().unit() == m.unit()` is false.  The same
happens for `m = e1 + 2 e2`. -/
theorem unit_not_idempotent :
    (wt dblIp (dblVec 1.0 1.0) = 2.0 ∧
     wt dblIp (dblVec 1.0 1.0) ≠ 0 ∧
     wt dblIp (divScalar (dblVec 1.0 1.0)
         (Double.sqrt (Double.fabs (wt dblIp (dblVec 1.0 1.0)))))
       = wt dblIp (dblVec 1.0 1.0)
         / (Double.sqrt (Double.fabs (wt dblIp (dblVec 1.0 1.0)))
             * Double.sqrt (Double.fabs (wt dblIp (dblVec 1.0 1.0)))) ∧
     unit dblIp Double.sqrt (dblVec 1.0 1.0)
       = dblVec (Double.fin (1592262918131443 / 2251799813685248))
           (Double.fin (1592262918131443 / 2251799813685248)) ∧
     unit dblIp Double.sqrt (unit dblIp Double.sqrt (dblVec 1.0 1.0))
       = dblVec (Double.fin (6369051672525773 / 9007199254740992))
           (Double.fin (6369051672525773 / 9007199254740992)) ∧
     equals (unit dblIp Double.sqrt (unit dblIp Double.sqrt (dblVec 1.0 1.0)))
       (unit dblIp Double.sqrt (dblVec 1.0 1.0)) = false) ∧
    (wt dblIp (dblVec 1.0 2.0) = 5.0 ∧
     unit dblIp Double.sqrt (dblVec 1.0 2.0)
       = dblVec (Double.fin (8056283928194521 / 18014398509481984))
           (Double.fin (8056283928194521 / 9007199254740992)) ∧
     unit dblIp Double.sqrt (unit dblIp Double.sqrt (dblVec 1.0 2.0))
       = dblVec (Double.fin (4028141964097261 / 9007199254740992))
           (Double.fin (4028141964097261 / 4503599627370496)) ∧
     equals (unit dblIp Double.sqrt (unit dblIp Double.sqrt (dblVec 1.0 2.0)))
       (unit dblIp Double.sqrt (dblVec 1.0 2.0)) = false) := by
  have hu : unit dblIp Double.sqrt (dblVec 1.0 1.0)
      = dblVec (Double.fin (1592262918131443 / 2251799813685248))
          (Double.fin (1592262918131443 / 2251799813685248)) := by
    rw [unit_dblVec 1.0 1.0 (Double.fin (6369051672525773 / 4503599627370496))
      (by decide!) (by decide!)]
    have e : (1.0 : Double) / Double.fin (6369051672525773 / 4503599627370496)
        = Double.fin (1592262918131443 / 2251799813685248) := by decide!
    rw [e]
  have huu : unit dblIp Double.sqrt (unit dblIp Double.sqrt (dblVec 1.0 1.0))
      = dblVec (Double.fin (6369051672525773 / 9007199254740992))
          (Double.fin (6369051672525773 / 9007199254740992)) := by
    rw [hu, unit_dblVec _ _ (Double.fin (9007199254740991 / 9007199254740992))
      (by decide!) (by decide!)]
    have e : Double.fin (1592262918131443 / 2251799813685248)
          / Double.fin (9007199254740991 / 9007199254740992)
        = Double.fin (6369051672525773 / 9007199254740992) := by decide!
    rw [e]
  have hv : unit dblIp Double.sqrt (dblVec 1.0 2.0)
      = dblVec (Double.fin (8056283928194521 / 18014398509481984))
          (Double.fin (8056283928194521 / 9007199254740992)) := by
    rw [unit_dblVec 1.0 2.0 (Double.fin (629397181890197 / 281474976710656))
      (by decide!) (by decide!)]
    have e1 : (1.0 : Double) / Double.fin (629397181890197 / 281474976710656)
        = Double.fin (8056283928194521 / 18014398509481984) := by decide!
    have e2 : (2.0 : Double) / Double.fin (629397181890197 / 281474976710656)
        = Double.fin (8056283928194521 / 9007199254740992) := by decide!
    rw [e1, e2]
  have hvv : unit dblIp Double.sqrt (unit dblIp Double.sqrt (dblVec 1.0 2.0))
      = dblVec (Double.fin (4028141964097261 / 9007199254740992))
          (Double.fin (4028141964097261 / 4503599627370496)) := by
    rw [hv, unit_dblVec _ _ (Double.fin (9007199254740991 / 9007199254740992))
      (by decide!) (by decide!)]
    have e1 : Double.fin (8056283928194521 / 18014398509481984)
          / Double.fin (9007199254740991 / 9007199254740992)
        = Double.fin (4028141964097261 / 9007199254740992) := by decide!
    have e2 : Double.fin (8056283928194521 / 9007199254740992)
          / Double.fin (9007199254740991 / 9007199254740992)
        = Double.fin (4028141964097261 / 4503599627370496) := by decide!
    rw [e1, e2]
  refine ⟨⟨by decide!, by decide!, ?_, hu, huu, ?_⟩, ⟨by decide!, hv, hvv, ?_⟩⟩
  · rw [divScalar_dblVec]
    decide!
  · rw [huu, hu]
    exact equals_dblVec_of_ne _ _ _ _ (by decide!)
  · rw [hvv, hv]
    exact equals_dblVec_of_ne _ _ _ _ (by decide!)

/-- C20 (as amended): over exact coefficients (an ordered field, where neither
the division nor the contraction rounds), for every multivector `m` whose
weight `wt = (m <= m)[0]` is nonzero, `m.unit().unit() = m.unit()` (also under
`operator==`), given that the scalar part of the left contraction scales
quadratically under the division by `t = sqrt(|wt|)`, and that `sqrt` is
exact at `|wt|` and at 1. -/
theorem unit_idempotent {α : Type} {Num P : Nat} [LinearOrderedField α]
    (ip : Multivector α Num → Multivector α Num → Multivector α (P + 1)) (sqrt : α → α)
    (m : Multivector α Num)
    (hw : wt ip m ≠ 0)
    (hsq : sqrt |wt ip m| * sqrt |wt ip m| = |wt ip m|)
    (hone : sqrt 1 = 1)
    (hquad : wt ip (divScalar m (sqrt |wt ip m|))
      = wt ip m / (sqrt |wt ip m| * sqrt |wt ip m|)) :
    unit ip sqrt (unit ip sqrt m) = unit ip sqrt m ∧
    equals (unit ip sqrt (unit ip sqrt m)) (unit ip sqrt m) = true := by
  have ht : sqrt |wt ip m| ≠ 0 := by
    intro h0
    rw [h0, mul_zero] at hsq
    exact hw (abs_eq_zero.mp hsq.symm)
  have hu : unit ip sqrt m = divScalar m (sqrt |wt ip m|) := by
    unfold unit
    unfold wt at ht
    simp only [fabs_eq_abs, ht, if_false]
    rfl
  have habs : |wt ip (divScalar m (sqrt |wt ip m|))| = 1 := by
    rw [hquad, hsq, abs_div, abs_abs]
    exact div_self (abs_ne_zero.mpr hw)
  have hidem : unit ip sqrt (unit ip sqrt m) = unit ip sqrt m := by
    rw [hu]
    have habs' : |(ip (divScalar m (sqrt |wt ip m|)) (divScalar m (sqrt |wt ip m|))).val 0| = 1 :=
      habs
    unfold unit
    simp only [fabs_eq_abs, habs', hone, one_ne_zero, if_false]
    apply ext_val
    intro i
    rw [divScalar_val, div_one]
  refine ⟨hidem, ?_⟩
  rw [hidem, equals_iff]
  intro j; rfl

theorem unit_idempotent_witness :
    wt planeIp (planeVec 3 4) ≠ 0 ∧
    (unit planeIp sqrtRat (unit planeIp sqrtRat (planeVec 3 4)) = unit planeIp sqrtRat (planeVec 3 4) ∧
     equals (unit planeIp sqrtRat (unit planeIp sqrtRat (planeVec 3 4)))
       (unit planeIp sqrtRat (planeVec 3 4)) = true) :=
  have hw : wt planeIp (planeVec 3 4) = 25 := by
    unfold wt; rw [planeIp_self]; norm_num
  ⟨by rw [hw]; norm_num,
   unit_idempotent planeIp sqrtRat (planeVec 3 4)
    (by rw [hw]; norm_num)
    (by rw [hw]; norm_num [sqrtRat_twentyfive])
    sqrtRat_one
    (by
      rw [hw]
      have h5 : sqrtRat |(25 : ℚ)| = 5 := by norm_num [sqrtRat_twentyfive]
      rw [h5]
      unfold wt planeIp
      simp only [divScalar_val]
      simp [planeVec]
      norm_num)⟩

end Multivector
